import Mathlib

/-!
Verification of the social-graph assembly pipeline (build_networks.py,
collect_keyword_posts.py, collect_users.py, step5_content_analysis.py).

The Python code is shallowly embedded: JSON scalar values become the
inductive `Value`, Python dictionaries of node/edge attributes become
association lists with networkx's update-in-place semantics, and the
graph builders become pure functions over lists.
-/

set_option maxHeartbeats 1000000

namespace SocialGraph

/-- A JSON-ish scalar value as it appears in the crawled records.
`null` stands for Python `None` (also used for an absent optional key,
since `dict.get` returns `None` in both cases). -/
inductive Value where
  | null
  | str (s : String)
  | num (n : Int)
  | bool (b : Bool)
deriving DecidableEq

/-- Python truthiness of a scalar (`bool(v)`). -/
def pyTruthy : Value → Bool
  | .null => false
  | .str s => !s.isEmpty
  | .num n => n != 0
  | .bool b => b

/-- Python `str(v)` for the scalar values we model. -/
def pyStr : Value → String
  | .null => "None"
  | .str s => s
  | .num n => toString n
  | .bool b => if b then "True" else "False"

/-- Python `==` on scalars: numbers and booleans compare numerically
(`True == 1`), everything else structurally, cross-type is `False`. -/
def pyNumVal : Value → Option Int
  | .num n => some n
  | .bool b => some (if b then 1 else 0)
  | _ => none

def pyEq (a b : Value) : Bool :=
  match pyNumVal a, pyNumVal b with
  | some x, some y => x == y
  | _, _ =>
    match a, b with
    | .null, .null => true
    | .str s, .str t => s == t
    | _, _ => false

/-! ### Attribute dictionaries (Python dicts, insertion ordered) -/

abbrev Attrs := List (String × Value)

/-- `d[k] = v` on an insertion-ordered dict: overwrite in place, else append. -/
def setAttr : Attrs → String → Value → Attrs
  | [], k, v => [(k, v)]
  | (k', v') :: t, k, v =>
    if k' = k then (k, v) :: t else (k', v') :: setAttr t k v

/-- `d.get(k)`: `none` when the key is absent. -/
def getAttr? (a : Attrs) (k : String) : Option Value :=
  (a.find? (fun kv => kv.1 == k)).map (·.2)

/-- `d.get(k, default)`. -/
def getAttrD (a : Attrs) (k : String) (dflt : Value) : Value :=
  (getAttr? a k).getD dflt

/-- `d.update(u)`: networkx merges the new keyword attributes into the
existing attribute dict of a node or edge. -/
def updAttrs (old upd : Attrs) : Attrs :=
  upd.foldl (fun a kv => setAttr a kv.1 kv.2) old

/-! ### Graph representation (networkx DiGraph / Graph)

Nodes and edges are insertion-ordered association lists, matching
networkx's dict-backed representation: re-adding a node or edge updates
the attribute dict in place and never creates a parallel entry. -/

abbrev NodeList := List (String × Attrs)
abbrev EdgeList := List (String × String × Attrs)

/-- `G.add_node(k, **attrs)`: update in place if present, else append. -/
def addNode : NodeList → String → Attrs → NodeList
  | [], k, a => [(k, a)]
  | (k', a') :: t, k, a =>
    if k' = k then (k', updAttrs a' a) :: t else (k', a') :: addNode t k a

/-- networkx `add_edge` first makes sure both endpoints exist as nodes. -/
def ensureNode (ns : NodeList) (k : String) : NodeList :=
  if ns.any (fun p => p.1 == k) then ns else ns ++ [(k, [])]

/-- Directed edge insertion keyed by the ordered pair. -/
def setEdgeD : EdgeList → String → String → Attrs → EdgeList
  | [], u, v, w => [(u, v, w)]
  | (a, b, d) :: t, u, v, w =>
    if a = u ∧ b = v then (a, b, updAttrs d w) :: t
    else (a, b, d) :: setEdgeD t u v w

/-- Does the stored undirected edge `(a, b)` match the unordered pair `(u, v)`? -/
def ukeyMatch (a b u v : String) : Bool :=
  (a == u && b == v) || (a == v && b == u)

/-- Undirected edge insertion keyed by the unordered pair. -/
def setEdgeU : EdgeList → String → String → Attrs → EdgeList
  | [], u, v, w => [(u, v, w)]
  | (a, b, d) :: t, u, v, w =>
    if ukeyMatch a b u v then (a, b, updAttrs d w) :: t
    else (a, b, d) :: setEdgeU t u v w

structure DiGraph where
  nodes : NodeList
  edges : EdgeList
deriving DecidableEq

structure UGraph where
  nodes : NodeList
  edges : EdgeList
deriving DecidableEq

def DiGraph.addNode (G : DiGraph) (k : String) (a : Attrs) : DiGraph :=
  { G with nodes := SocialGraph.addNode G.nodes k a }

def DiGraph.addEdge (G : DiGraph) (u v : String) (w : Attrs) : DiGraph :=
  { nodes := ensureNode (ensureNode G.nodes u) v
    edges := setEdgeD G.edges u v w }

def UGraph.addNode (G : UGraph) (k : String) (a : Attrs) : UGraph :=
  { G with nodes := SocialGraph.addNode G.nodes k a }

def UGraph.addEdge (G : UGraph) (u v : String) (w : Attrs) : UGraph :=
  { nodes := ensureNode (ensureNode G.nodes u) v
    edges := setEdgeU G.edges u v w }

/-! ### build_information_diffusion (build_networks.py lines 49-91) -/

/-- A record of data/posts.json as read by `build_information_diffusion`.
Fields read with `.get` default to `null` when the key is absent;
`tags` distinguishes an absent/null list (`p.get("tags") or []`). -/
structure Post where
  id : Value
  acct : Value              -- (p.get("account") or {}).get("acct")
  language : Value
  replies_count : Value
  reblogs_count : Value
  favourites_count : Value
  url : Value
  tags : Option (List String)
  in_reply_to_id : Value
  reblog_of_id : Value
deriving DecidableEq

def postNodeAttrs (p : Post) : Attrs :=
  [("author", p.acct),
   ("language", p.language),
   ("replies", p.replies_count),
   ("reblogs", p.reblogs_count),
   ("favourites", p.favourites_count),
   ("url", p.url),
   ("tags", .str (String.intercalate "," (p.tags.getD [])))]

/-- `present = {str(p["id"]) for p in posts}` (membership-equivalent list). -/
def present (posts : List Post) : List String :=
  posts.map (fun p => pyStr p.id)

/-- `r = p.get("in_reply_to_id"); if r is not None: ... if src in present: add_edge`. -/
def diffusionReplyStep (pres : List String) (G : DiGraph) (p : Post) : DiGraph :=
  if p.in_reply_to_id ≠ .null then
    if pyStr p.in_reply_to_id ∈ pres then
      G.addEdge (pyStr p.in_reply_to_id) (pyStr p.id) [("kind", .str "reply")]
    else G
  else G

/-- `b = p.get("reblog_of_id"); if b is not None: ... if src in present: add_edge`. -/
def diffusionBoostStep (pres : List String) (G : DiGraph) (p : Post) : DiGraph :=
  if p.reblog_of_id ≠ .null then
    if pyStr p.reblog_of_id ∈ pres then
      G.addEdge (pyStr p.reblog_of_id) (pyStr p.id) [("kind", .str "boost")]
    else G
  else G

/-- One iteration of the edge loop of `build_information_diffusion`:
the reply edge is attempted first, then the boost edge. -/
def diffusionEdgeStep (pres : List String) (G : DiGraph) (p : Post) : DiGraph :=
  diffusionBoostStep pres (diffusionReplyStep pres G p) p

def build_information_diffusion (posts : List Post) : DiGraph :=
  let G : DiGraph :=
    posts.foldl (fun G p => G.addNode (pyStr p.id) (postNodeAttrs p)) ⟨[], []⟩
  posts.foldl (diffusionEdgeStep (present posts)) G

/-! ### Small sample records used by concrete witnesses -/

/-- A post record with only id / reply-parent / reblog-parent set. -/
def mkPost (i : Value) (r : Value) (b : Value) : Post :=
  { id := i, acct := .null, language := .null, replies_count := .null,
    reblogs_count := .null, favourites_count := .null, url := .null,
    tags := none, in_reply_to_id := r, reblog_of_id := b }

/-! ### Generic lemmas about the edge containers -/

theorem mem_setEdgeD_endpoints {P : String → String → Prop}
    (es : EdgeList) (u v : String) (w : Attrs)
    (hes : ∀ e ∈ es, P e.1 e.2.1) (huv : P u v) :
    ∀ e ∈ setEdgeD es u v w, P e.1 e.2.1 := by
  induction es with
  | nil =>
    intro e he
    simp only [setEdgeD, List.mem_singleton] at he
    subst he; exact huv
  | cons hd t ih =>
    obtain ⟨a, b, d⟩ := hd
    intro e he
    simp only [setEdgeD] at he
    split at he
    · rcases List.mem_cons.1 he with h | h
      · subst h; exact hes (a, b, d) (List.mem_cons_self _ _)
      · exact hes e (List.mem_cons_of_mem _ h)
    · rcases List.mem_cons.1 he with h | h
      · subst h; exact hes (a, b, d) (List.mem_cons_self _ _)
      · exact ih (fun e' he' => hes e' (List.mem_cons_of_mem _ he')) e h

theorem diffusionReplyStep_endpoints (pres : List String) (G : DiGraph) (p : Post)
    (hG : ∀ e ∈ G.edges, e.1 ∈ pres ∧ e.2.1 ∈ pres) (hp : pyStr p.id ∈ pres) :
    ∀ e ∈ (diffusionReplyStep pres G p).edges, e.1 ∈ pres ∧ e.2.1 ∈ pres := by
  unfold diffusionReplyStep DiGraph.addEdge
  split
  · split
    · exact mem_setEdgeD_endpoints (P := fun a b => a ∈ pres ∧ b ∈ pres) G.edges _ _ _ hG ⟨by assumption, hp⟩
    · exact hG
  · exact hG

theorem diffusionBoostStep_endpoints (pres : List String) (G : DiGraph) (p : Post)
    (hG : ∀ e ∈ G.edges, e.1 ∈ pres ∧ e.2.1 ∈ pres) (hp : pyStr p.id ∈ pres) :
    ∀ e ∈ (diffusionBoostStep pres G p).edges, e.1 ∈ pres ∧ e.2.1 ∈ pres := by
  unfold diffusionBoostStep DiGraph.addEdge
  split
  · split
    · exact mem_setEdgeD_endpoints (P := fun a b => a ∈ pres ∧ b ∈ pres) G.edges _ _ _ hG ⟨by assumption, hp⟩
    · exact hG
  · exact hG

theorem foldl_diffusion_endpoints (pres : List String) :
    ∀ (l : List Post) (G : DiGraph),
      (∀ e ∈ G.edges, e.1 ∈ pres ∧ e.2.1 ∈ pres) →
      (∀ p ∈ l, pyStr p.id ∈ pres) →
      ∀ e ∈ (l.foldl (diffusionEdgeStep pres) G).edges, e.1 ∈ pres ∧ e.2.1 ∈ pres := by
  intro l
  induction l with
  | nil => intro G hG _; exact hG
  | cons p t ih =>
    intro G hG hl
    simp only [List.foldl_cons]
    refine ih _ ?_ (fun q hq => hl q (List.mem_cons_of_mem _ hq))
    exact diffusionBoostStep_endpoints pres _ p
      (diffusionReplyStep_endpoints pres G p hG (hl p (List.mem_cons_self _ _)))
      (hl p (List.mem_cons_self _ _))

theorem nodeFold_edges (l : List Post) (G : DiGraph) :
    (l.foldl (fun G p => G.addNode (pyStr p.id) (postNodeAttrs p)) G).edges = G.edges := by
  induction l generalizing G with
  | nil => rfl
  | cons p t ih => simpa using ih (G.addNode (pyStr p.id) (postNodeAttrs p))

/-- C1: every edge of the diffusion graph built by `build_information_diffusion`
has both its source and its target in the set of string-coerced identifiers of
the input posts; a post referencing an identifier outside that set produces no
edge (and the builder is a total function, so no error is raised). -/
theorem C1_diffusion_edges_endpoints_present (posts : List Post) :
    ∀ e ∈ (build_information_diffusion posts).edges,
      e.1 ∈ present posts ∧ e.2.1 ∈ present posts := by
  unfold build_information_diffusion
  refine foldl_diffusion_endpoints (present posts) posts _ ?_ ?_
  · intro e he
    rw [nodeFold_edges] at he
    simp at he
  · intro p hp
    exact List.mem_map_of_mem (fun q => pyStr q.id) hp

/-- Concrete instantiation of C1: in the two-post example the single reply
edge has both endpoints among the post identifiers. -/
theorem C1_witness :
    "1" ∈ present [mkPost (.str "1") .null .null, mkPost (.str "2") (.str "1") .null]
      ∧ "2" ∈ present [mkPost (.str "1") .null .null, mkPost (.str "2") (.str "1") .null] := by
  have h := C1_diffusion_edges_endpoints_present
    [mkPost (.str "1") .null .null, mkPost (.str "2") (.str "1") .null]
    ("1", "2", [("kind", .str "reply")]) (by decide)
  exact h

/-! ### Exact bookkeeping of directed edge insertion (for C6) -/

theorem setEdgeD_fresh (es : EdgeList) (u v : String) (w : Attrs)
    (h : ∀ e ∈ es, ¬(e.1 = u ∧ e.2.1 = v)) :
    setEdgeD es u v w = es ++ [(u, v, w)] := by
  induction es with
  | nil => rfl
  | cons hd t ih =>
    obtain ⟨a, b, d⟩ := hd
    simp only [setEdgeD]
    rw [if_neg (h (a, b, d) (List.mem_cons_self _ _)),
      ih (fun e he => h e (List.mem_cons_of_mem _ he))]
    rfl

theorem setEdgeD_append_last (es : EdgeList) (u v : String) (d w : Attrs)
    (h : ∀ e ∈ es, ¬(e.1 = u ∧ e.2.1 = v)) :
    setEdgeD (es ++ [(u, v, d)]) u v w = es ++ [(u, v, updAttrs d w)] := by
  induction es with
  | nil => simp [setEdgeD]
  | cons hd t ih =>
    obtain ⟨a, b, dd⟩ := hd
    simp only [List.cons_append, setEdgeD]
    rw [if_neg (h (a, b, dd) (List.mem_cons_self _ _))]
    exact congrArg _ (ih (fun e he => h e (List.mem_cons_of_mem _ he)))

theorem setEdgeD_preserve (es : EdgeList) (u v : String) (w : Attrs)
    (e : String × String × Attrs) (he : e ∈ es) (hne : ¬(e.1 = u ∧ e.2.1 = v)) :
    e ∈ setEdgeD es u v w := by
  induction es with
  | nil => cases he
  | cons hd t ih =>
    obtain ⟨a, b, d⟩ := hd
    simp only [setEdgeD]
    split
    · rcases List.mem_cons.1 he with h | h
      · exact absurd (by subst h; assumption) hne
      · exact List.mem_cons_of_mem _ h
    · rcases List.mem_cons.1 he with h | h
      · exact h ▸ List.mem_cons_self _ _
      · exact List.mem_cons_of_mem _ (ih h)

theorem diffusionReplyStep_preserve (pres : List String) (G : DiGraph) (p : Post)
    (e : String × String × Attrs) (he : e ∈ G.edges) (hne : e.2.1 ≠ pyStr p.id) :
    e ∈ (diffusionReplyStep pres G p).edges := by
  unfold diffusionReplyStep DiGraph.addEdge
  split
  · split
    · exact setEdgeD_preserve G.edges _ _ _ e he (fun hc => hne hc.2)
    · exact he
  · exact he

theorem diffusionBoostStep_preserve (pres : List String) (G : DiGraph) (p : Post)
    (e : String × String × Attrs) (he : e ∈ G.edges) (hne : e.2.1 ≠ pyStr p.id) :
    e ∈ (diffusionBoostStep pres G p).edges := by
  unfold diffusionBoostStep DiGraph.addEdge
  split
  · split
    · exact setEdgeD_preserve G.edges _ _ _ e he (fun hc => hne hc.2)
    · exact he
  · exact he

theorem diffusionEdgeStep_preserve (pres : List String) (G : DiGraph) (p : Post)
    (e : String × String × Attrs) (he : e ∈ G.edges) (hne : e.2.1 ≠ pyStr p.id) :
    e ∈ (diffusionEdgeStep pres G p).edges :=
  diffusionBoostStep_preserve pres _ p e (diffusionReplyStep_preserve pres G p e he hne) hne

theorem foldl_diffusion_preserve (pres : List String) (l : List Post) :
    ∀ (G : DiGraph) (e : String × String × Attrs), e ∈ G.edges →
      (∀ q ∈ l, e.2.1 ≠ pyStr q.id) →
      e ∈ (l.foldl (diffusionEdgeStep pres) G).edges := by
  induction l with
  | nil => intro G e he _; exact he
  | cons p t ih =>
    intro G e he hl
    exact ih _ e
      (diffusionEdgeStep_preserve pres G p e he (hl p (List.mem_cons_self _ _)))
      (fun q hq => hl q (List.mem_cons_of_mem _ hq))

theorem diffusionEdgeStep_targets (pres : List String) (P : String → Prop)
    (G : DiGraph) (p : Post)
    (hG : ∀ e ∈ G.edges, P e.2.1) :
    ∀ e ∈ (diffusionEdgeStep pres G p).edges, P e.2.1 ∨ e.2.1 = pyStr p.id := by
  have hrep : ∀ e ∈ (diffusionReplyStep pres G p).edges, P e.2.1 ∨ e.2.1 = pyStr p.id := by
    unfold diffusionReplyStep DiGraph.addEdge
    split
    · split
      · exact mem_setEdgeD_endpoints (P := fun _ b => P b ∨ b = pyStr p.id)
          G.edges _ _ _ (fun e he => Or.inl (hG e he)) (Or.inr rfl)
      · exact fun e he => Or.inl (hG e he)
    · exact fun e he => Or.inl (hG e he)
  unfold diffusionEdgeStep diffusionBoostStep DiGraph.addEdge
  split
  · split
    · exact mem_setEdgeD_endpoints (P := fun _ b => P b ∨ b = pyStr p.id)
        (diffusionReplyStep pres G p).edges _ _ _ hrep (Or.inr rfl)
    · exact hrep
  · exact hrep

theorem foldl_diffusion_targets_aux (pres : List String) (l : List Post) :
    ∀ (G : DiGraph) (P : String → Prop),
      (∀ e ∈ G.edges, P e.2.1) →
      ∀ e ∈ (l.foldl (diffusionEdgeStep pres) G).edges,
        P e.2.1 ∨ ∃ q ∈ l, e.2.1 = pyStr q.id := by
  induction l with
  | nil => intro G P hG e he; exact Or.inl (hG e he)
  | cons p t ih =>
    intro G P hG e he
    rcases ih (diffusionEdgeStep pres G p) (fun b => P b ∨ b = pyStr p.id)
        (diffusionEdgeStep_targets pres P G p hG) e he with h | h
    · rcases h with h | h
      · exact Or.inl h
      · exact Or.inr ⟨p, List.mem_cons_self _ _, h⟩
    · obtain ⟨q, hq, hq2⟩ := h
      exact Or.inr ⟨q, List.mem_cons_of_mem _ hq, hq2⟩

/-- After processing a prefix `l` of the post list starting from an edgeless
graph, every edge's target is the string id of some post of `l`. -/
theorem foldl_diffusion_targets (pres : List String) (l : List Post) (G : DiGraph)
    (hG : G.edges = []) :
    ∀ e ∈ (l.foldl (diffusionEdgeStep pres) G).edges, ∃ q ∈ l, e.2.1 = pyStr q.id := by
  intro e he
  rcases foldl_diffusion_targets_aux pres l G (fun _ => False)
      (fun e he' => by simp [hG] at he') e he with h | h
  · exact absurd h (fun h => h)
  · exact h

theorem replyStep_edges_cases (pres : List String) (G : DiGraph) (p : Post)
    (hfresh : ∀ e ∈ G.edges, e.2.1 ≠ pyStr p.id) :
    (diffusionReplyStep pres G p).edges = G.edges ∨
    (p.in_reply_to_id ≠ .null ∧ pyStr p.in_reply_to_id ∈ pres ∧
      (diffusionReplyStep pres G p).edges =
        G.edges ++ [(pyStr p.in_reply_to_id, pyStr p.id, [("kind", Value.str "reply")])]) := by
  unfold diffusionReplyStep DiGraph.addEdge
  split
  · split
    · refine Or.inr ⟨by assumption, by assumption, ?_⟩
      exact setEdgeD_fresh G.edges _ _ _ (fun e he hc => hfresh e he hc.2)
    · exact Or.inl rfl
  · exact Or.inl rfl

theorem diffusionEdgeStep_adds_boost (pres : List String) (G : DiGraph) (p : Post)
    (hfresh : ∀ e ∈ G.edges, e.2.1 ≠ pyStr p.id)
    (hb : p.reblog_of_id ≠ .null) (hbm : pyStr p.reblog_of_id ∈ pres) :
    (pyStr p.reblog_of_id, pyStr p.id, [("kind", Value.str "boost")])
      ∈ (diffusionEdgeStep pres G p).edges := by
  unfold diffusionEdgeStep diffusionBoostStep DiGraph.addEdge
  rw [if_pos hb, if_pos hbm]
  show _ ∈ setEdgeD (diffusionReplyStep pres G p).edges (pyStr p.reblog_of_id) (pyStr p.id) _
  rcases replyStep_edges_cases pres G p hfresh with hc | ⟨_, _, hc⟩
  · rw [hc, setEdgeD_fresh G.edges _ _ _ (fun e he h => hfresh e he h.2)]
    exact List.mem_append_right _ (List.mem_singleton.2 rfl)
  · rw [hc]
    by_cases hsame : pyStr p.in_reply_to_id = pyStr p.reblog_of_id
    · rw [← hsame,
        setEdgeD_append_last G.edges _ _ _ _ (fun e he h => hfresh e he h.2)]
      rw [hsame]
      exact List.mem_append_right _ (List.mem_singleton.2 rfl)
    · rw [setEdgeD_fresh _ _ _ _ ?_]
      · exact List.mem_append_right _ (List.mem_singleton.2 rfl)
      · intro e he hk
        rcases List.mem_append.1 he with h | h
        · exact hfresh e h hk.2
        · rw [List.mem_singleton.1 h] at hk
          exact hsame hk.1

theorem diffusionEdgeStep_adds_reply (pres : List String) (G : DiGraph) (p : Post)
    (hfresh : ∀ e ∈ G.edges, e.2.1 ≠ pyStr p.id)
    (hr : p.in_reply_to_id ≠ .null) (hrm : pyStr p.in_reply_to_id ∈ pres)
    (hnb : ¬(p.reblog_of_id ≠ .null ∧ pyStr p.reblog_of_id ∈ pres ∧
      pyStr p.reblog_of_id = pyStr p.in_reply_to_id)) :
    (pyStr p.in_reply_to_id, pyStr p.id, [("kind", Value.str "reply")])
      ∈ (diffusionEdgeStep pres G p).edges := by
  have hc : (diffusionReplyStep pres G p).edges =
      G.edges ++ [(pyStr p.in_reply_to_id, pyStr p.id, [("kind", Value.str "reply")])] := by
    unfold diffusionReplyStep DiGraph.addEdge
    rw [if_pos hr, if_pos hrm]
    exact setEdgeD_fresh G.edges _ _ _ (fun e he h => hfresh e he h.2)
  have hmem : (pyStr p.in_reply_to_id, pyStr p.id, [("kind", Value.str "reply")])
      ∈ (diffusionReplyStep pres G p).edges := by
    rw [hc]; exact List.mem_append_right _ (List.mem_singleton.2 rfl)
  unfold diffusionEdgeStep diffusionBoostStep DiGraph.addEdge
  split
  · split
    · refine setEdgeD_preserve _ _ _ _ _ hmem ?_
      intro hk
      exact hnb ⟨by assumption, by assumption, hk.1.symm⟩
    · exact hmem
  · exact hmem

/-- C6 counterexample input: one post declaring the same known post both as
its reply-parent and as its reblog-parent. -/
def postsC6x : List Post :=
  [mkPost (.str "1") .null .null, mkPost (.str "2") (.str "1") (.str "1")]

/-- C6 as stated is false: in `postsC6x`, post "2" declares reply-parent "1",
"1" is in the known identifier set, yet the built graph contains no edge
tagged `kind = reply` — its only edge 1→2 is tagged `boost`, because the
boost insertion overwrites the reply attribute on the same edge key. -/
theorem C6_counterexample :
    (mkPost (.str "2") (.str "1") (.str "1")) ∈ postsC6x
    ∧ (mkPost (.str "2") (.str "1") (.str "1")).in_reply_to_id ≠ Value.null
    ∧ pyStr (mkPost (.str "2") (.str "1") (.str "1")).in_reply_to_id ∈ present postsC6x
    ∧ (build_information_diffusion postsC6x).edges
        = [("1", "2", [("kind", Value.str "boost")])] := by decide

/-- C6 amended: for post lists with pairwise-distinct string-coerced
identifiers, every post whose reblog-parent is known yields the directed
edge parent→post tagged `boost`, and every post whose reply-parent is known
yields the directed edge parent→post tagged `reply` — except when the same
post also has a known reblog-parent with the same string id, in which case
the later boost insertion overwrites the reply tag on the single shared
edge. Edges are always oriented parent → child. -/
theorem C6_reply_boost_edges (posts : List Post)
    (hnd : (present posts).Nodup) (p : Post) (hp : p ∈ posts) :
    ((p.reblog_of_id ≠ .null ∧ pyStr p.reblog_of_id ∈ present posts) →
      (pyStr p.reblog_of_id, pyStr p.id, [("kind", Value.str "boost")])
        ∈ (build_information_diffusion posts).edges)
    ∧ ((p.in_reply_to_id ≠ .null ∧ pyStr p.in_reply_to_id ∈ present posts ∧
        ¬(p.reblog_of_id ≠ .null ∧ pyStr p.reblog_of_id ∈ present posts ∧
          pyStr p.reblog_of_id = pyStr p.in_reply_to_id)) →
      (pyStr p.in_reply_to_id, pyStr p.id, [("kind", Value.str "reply")])
        ∈ (build_information_diffusion posts).edges) := by
  classical
  obtain ⟨l1, l2, hsplit⟩ := List.append_of_mem hp
  have hpres : present posts = l1.map (fun q => pyStr q.id) ++
      pyStr p.id :: l2.map (fun q => pyStr q.id) := by
    simp [present, hsplit]
  have hnotin1 : pyStr p.id ∉ l1.map (fun q => pyStr q.id) := by
    rw [hpres] at hnd
    rcases List.nodup_append.1 hnd with ⟨_, _, hdisj⟩
    intro hmem
    exact hdisj hmem (List.mem_cons_self _ _)
  have hnotin2 : pyStr p.id ∉ l2.map (fun q => pyStr q.id) := by
    rw [hpres] at hnd
    rcases List.nodup_append.1 hnd with ⟨_, hnd2, _⟩
    exact (List.nodup_cons.1 hnd2).1
  have hbuild : (build_information_diffusion posts).edges =
      (l2.foldl (diffusionEdgeStep (present posts))
        (diffusionEdgeStep (present posts)
          (l1.foldl (diffusionEdgeStep (present posts))
            (posts.foldl (fun G q => G.addNode (pyStr q.id) (postNodeAttrs q)) ⟨[], []⟩))
          p)).edges := by
    conv_lhs => rw [build_information_diffusion, hsplit]
    rw [List.foldl_append, List.foldl_cons, ← hsplit]
  have hG0e : (posts.foldl
      (fun G q => G.addNode (pyStr q.id) (postNodeAttrs q)) ⟨[], []⟩ : DiGraph).edges = [] :=
    nodeFold_edges posts ⟨[], []⟩
  have hfresh : ∀ e ∈ (l1.foldl (diffusionEdgeStep (present posts))
      (posts.foldl (fun G q => G.addNode (pyStr q.id) (postNodeAttrs q)) ⟨[], []⟩)).edges,
      e.2.1 ≠ pyStr p.id := by
    intro e he heq
    obtain ⟨q, hq, hq2⟩ := foldl_diffusion_targets (present posts) l1 _ hG0e e he
    exact hnotin1 (heq ▸ hq2 ▸ List.mem_map_of_mem (fun r => pyStr r.id) hq)
  have hkeep : ∀ e : String × String × Attrs,
      e ∈ (diffusionEdgeStep (present posts)
        (l1.foldl (diffusionEdgeStep (present posts))
          (posts.foldl (fun G q => G.addNode (pyStr q.id) (postNodeAttrs q)) ⟨[], []⟩)) p).edges →
      e.2.1 = pyStr p.id → e ∈ (build_information_diffusion posts).edges := by
    intro e he htid
    rw [hbuild]
    refine foldl_diffusion_preserve (present posts) l2 _ e he ?_
    intro q hq heq
    exact hnotin2 (htid ▸ heq ▸ List.mem_map_of_mem (fun r => pyStr r.id) hq)
  constructor
  · rintro ⟨hb, hbm⟩
    exact hkeep _ (diffusionEdgeStep_adds_boost (present posts) _ p hfresh hb hbm) rfl
  · rintro ⟨hr, hrm, hnb⟩
    exact hkeep _ (diffusionEdgeStep_adds_reply (present posts) _ p hfresh hr hrm hnb) rfl

/-- The spec's end-to-end example, established through `C6_reply_boost_edges`:
posts 1, 2 (reply to 1), 3 (reblog of the absent 9) give exactly the nodes
1, 2, 3 and the single reply edge 1→2. -/
theorem C6_witness :
    ("1", "2", [("kind", Value.str "reply")])
      ∈ (build_information_diffusion
          [mkPost (.str "1") .null .null, mkPost (.str "2") (.str "1") .null,
           mkPost (.str "3") .null (.str "9")]).edges
    ∧ (build_information_diffusion
        [mkPost (.str "1") .null .null, mkPost (.str "2") (.str "1") .null,
         mkPost (.str "3") .null (.str "9")]).nodes.map Prod.fst = ["1", "2", "3"]
    ∧ (build_information_diffusion
        [mkPost (.str "1") .null .null, mkPost (.str "2") (.str "1") .null,
         mkPost (.str "3") .null (.str "9")]).edges
        = [("1", "2", [("kind", Value.str "reply")])] := by
  refine ⟨?_, by decide, by decide⟩
  exact (C6_reply_boost_edges
    [mkPost (.str "1") .null .null, mkPost (.str "2") (.str "1") .null,
     mkPost (.str "3") .null (.str "9")]
    (by decide) (mkPost (.str "2") (.str "1") .null) (by decide)).2
    (by decide)

/-! ### C3: attribute sanitization before export -/

/-- Modelled from the spec (§4.5 "Attribute Sanitizer"), a component that the
repository's code does not contain: a null-valued attribute is dropped
entirely; scalar string/number/boolean values pass through unchanged.
(The sequence/mapping cases of the spec do not arise for the scalar
attribute values the builders produce.) -/
def sanitizeValue_spec : Value → Option Value
  | .null => none
  | v => some v

/-- Modelled from the spec: sanitize one attribute dict. -/
def sanitizeAttrs_spec (a : Attrs) : Attrs :=
  a.filterMap (fun kv => (sanitizeValue_spec kv.2).map (fun v => (kv.1, v)))

/-- Modelled from the spec: sanitize every node attribute dict of a graph. -/
def sanitizeNodes_spec (ns : NodeList) : NodeList :=
  ns.map (fun p => (p.1, sanitizeAttrs_spec p.2))

/-- C3 as stated is false: the pipeline applies no sanitization pass between
graph construction and export. Building the diffusion graph from a single
post with an absent `language` leaves the node attribute `language = null`
reaching the exporters, and the graph differs from its spec-sanitized form
(which would have dropped the null-valued attributes). -/
theorem C3_counterexample :
    getAttr? (postNodeAttrs (mkPost (.str "1") .null .null)) "language" = some Value.null
    ∧ ((build_information_diffusion [mkPost (.str "1") .null .null]).nodes.map
        (fun p => getAttr? p.2 "language")) = [some Value.null]
    ∧ sanitizeNodes_spec (build_information_diffusion [mkPost (.str "1") .null .null]).nodes
        ≠ (build_information_diffusion [mkPost (.str "1") .null .null]).nodes := by decide

theorem addNode_fresh (ns : NodeList) (k : String) (a : Attrs)
    (h : ∀ e ∈ ns, e.1 ≠ k) :
    addNode ns k a = ns ++ [(k, a)] := by
  induction ns with
  | nil => rfl
  | cons hd t ih =>
    obtain ⟨k', a'⟩ := hd
    simp only [addNode]
    rw [if_neg (h (k', a') (List.mem_cons_self _ _))]
    exact congrArg _ (ih (fun e he => h e (List.mem_cons_of_mem _ he)))

theorem addNode_preserve (ns : NodeList) (k : String) (a : Attrs)
    (e : String × Attrs) (he : e ∈ ns) (hne : e.1 ≠ k) :
    e ∈ addNode ns k a := by
  induction ns with
  | nil => cases he
  | cons hd t ih =>
    obtain ⟨k', a'⟩ := hd
    simp only [addNode]
    split
    · rcases List.mem_cons.1 he with h | h
      · exact absurd (by subst h; assumption) hne
      · exact List.mem_cons_of_mem _ h
    · rcases List.mem_cons.1 he with h | h
      · exact h ▸ List.mem_cons_self _ _
      · exact List.mem_cons_of_mem _ (ih h)

/-- With pairwise-distinct string ids, each post's node entry with its full
attribute dict is present after the node-adding loop. -/
theorem diffusion_nodeFold_mem (l : List Post) :
    ∀ (G : DiGraph),
      (present l).Nodup →
      (∀ q ∈ l, ∀ e ∈ G.nodes, e.1 ≠ pyStr q.id) →
      ∀ p ∈ l, (pyStr p.id, postNodeAttrs p)
        ∈ (l.foldl (fun G q => G.addNode (pyStr q.id) (postNodeAttrs q)) G).nodes := by
  induction l with
  | nil => intro G _ _ p hp; cases hp
  | cons p0 t ih =>
    intro G hnd hdisj p hp
    have hnd' : (present t).Nodup := (List.nodup_cons.1 hnd).2
    have hp0t : pyStr p0.id ∉ present t := (List.nodup_cons.1 hnd).1
    have hG' : (List.foldl (fun G q => G.addNode (pyStr q.id) (postNodeAttrs q)) G (p0 :: t))
        = List.foldl (fun G q => G.addNode (pyStr q.id) (postNodeAttrs q))
            (G.addNode (pyStr p0.id) (postNodeAttrs p0)) t := rfl
    rw [hG']
    have hnodes0 : (G.addNode (pyStr p0.id) (postNodeAttrs p0)).nodes
        = G.nodes ++ [(pyStr p0.id, postNodeAttrs p0)] :=
      addNode_fresh G.nodes _ _ (fun e he hk =>
        hdisj p0 (List.mem_cons_self _ _) e he hk)
    rcases List.mem_cons.1 hp with h | h
    · -- p is the head: its entry survives the tail fold untouched
      subst h
      have hmem0 : (pyStr p.id, postNodeAttrs p)
          ∈ (G.addNode (pyStr p.id) (postNodeAttrs p)).nodes := by
        rw [hnodes0]; exact List.mem_append_right _ (List.mem_singleton.2 rfl)
      -- preservation of a node entry through the remaining node fold
      have hpre : ∀ (t' : List Post) (G' : DiGraph) (e : String × Attrs),
          e ∈ G'.nodes → (∀ q ∈ t', e.1 ≠ pyStr q.id) →
          e ∈ (t'.foldl (fun G q => G.addNode (pyStr q.id) (postNodeAttrs q)) G').nodes := by
        intro t'
        induction t' with
        | nil => intro G' e he _; exact he
        | cons q tq ihq =>
          intro G' e he hq
          exact ihq _ e (addNode_preserve G'.nodes _ _ e he (hq q (List.mem_cons_self _ _)))
            (fun r hr => hq r (List.mem_cons_of_mem _ hr))
      refine hpre t _ _ hmem0 ?_
      intro q hq hk
      refine hp0t ?_
      rw [show pyStr p.id = pyStr q.id from hk]
      exact List.mem_map_of_mem (fun r => pyStr r.id) hq
    · refine ih _ hnd' ?_ p h
      intro q hq e he hk
      rw [hnodes0] at he
      rcases List.mem_append.1 he with h' | h'
      · exact hdisj q (List.mem_cons_of_mem _ hq) e h' hk
      · rw [List.mem_singleton.1 h'] at hk
        refine hp0t ?_
        rw [show pyStr p0.id = pyStr q.id from hk]
        exact List.mem_map_of_mem (fun r => pyStr r.id) hq

theorem ensureNode_preserve (ns : NodeList) (k : String)
    (e : String × Attrs) (he : e ∈ ns) : e ∈ ensureNode ns k := by
  unfold ensureNode
  split
  · exact he
  · exact List.mem_append_left _ he

theorem diffusionEdgeStep_nodes_preserve (pres : List String) (G : DiGraph) (p : Post)
    (e : String × Attrs) (he : e ∈ G.nodes) :
    e ∈ (diffusionEdgeStep pres G p).nodes := by
  have h1 : e ∈ (diffusionReplyStep pres G p).nodes := by
    unfold diffusionReplyStep DiGraph.addEdge
    split
    · split
      · exact ensureNode_preserve _ _ e (ensureNode_preserve _ _ e he)
      · exact he
    · exact he
  unfold diffusionEdgeStep diffusionBoostStep DiGraph.addEdge
  split
  · split
    · exact ensureNode_preserve _ _ e (ensureNode_preserve _ _ e h1)
    · exact h1
  · exact h1

theorem foldl_diffusion_nodes_preserve (pres : List String) (l : List Post) :
    ∀ (G : DiGraph) (e : String × Attrs), e ∈ G.nodes →
      e ∈ (l.foldl (diffusionEdgeStep pres) G).nodes := by
  induction l with
  | nil => intro G e he; exact he
  | cons p t ih =>
    intro G e he
    exact ih _ e (diffusionEdgeStep_nodes_preserve pres G p e he)

/-- C3 amended: the code contains no attribute sanitization pass. The only
coercion is inline at node creation: the post's tag list is joined into a
single comma-separated string, while every other attribute — including
null values — is stored and reaches export unchanged. (Stated for post
lists with pairwise-distinct string ids so each node's attribute dict is
exactly the one written for its post.) -/
theorem C3_inline_tags_join_nulls_kept (posts : List Post)
    (hnd : (present posts).Nodup) (p : Post) (hp : p ∈ posts) :
    ∃ a : Attrs, (pyStr p.id, a) ∈ (build_information_diffusion posts).nodes
      ∧ getAttr? a "tags" = some (.str (String.intercalate "," (p.tags.getD [])))
      ∧ getAttr? a "language" = some p.language
      ∧ getAttr? a "author" = some p.acct := by
  refine ⟨postNodeAttrs p, ?_, ?_, ?_, ?_⟩
  · unfold build_information_diffusion
    refine foldl_diffusion_nodes_preserve (present posts) posts _ _ ?_
    exact diffusion_nodeFold_mem posts ⟨[], []⟩ hnd (by intro q _ e he; cases he) p hp
  · simp [postNodeAttrs, getAttr?]
  · simp [postNodeAttrs, getAttr?]
  · simp [postNodeAttrs, getAttr?]

/-- Concrete instantiation of the amended C3: a post with tags `["a","b"]`
gets the single string attribute `"a,b"`, and its null-valued `language`
attribute is retained (not dropped). -/
theorem C3_witness :
    ∃ a : Attrs, ("1", a) ∈ (build_information_diffusion
        [{ mkPost (.str "1") .null .null with tags := some ["a", "b"] }]).nodes
      ∧ getAttr? a "tags" = some (.str "a,b")
      ∧ getAttr? a "language" = some Value.null
      ∧ getAttr? a "author" = some Value.null := by
  have h := C3_inline_tags_join_nulls_kept
    [{ mkPost (.str "1") .null .null with tags := some ["a", "b"] }]
    (by decide) { mkPost (.str "1") .null .null with tags := some ["a", "b"] }
    (by decide)
  simpa using h

/-! ### collect_keyword_posts.py: normalize_status and _add_status -/

structure RawAccount where
  id : Value
  acct : Value
  username : Value
  display_name : Value
  url : Value
deriving DecidableEq

structure RawReblog where
  id : Value
deriving DecidableEq

structure RawMention where
  acct : Value
deriving DecidableEq

structure RawTag where
  name : Value
deriving DecidableEq

/-- A raw status record as handed to `normalize_status` / `_add_status`.
The code indexes `s["id"]` unconditionally, so `id` is modeled as a present
field; every field read with `.get` defaults to `null` when absent;
`account` and `reblog` are `none` when absent, null or empty
(`s.get("account", {}) or {}`, `reblog or {}`). `created_at` is carried
through as a scalar (the `isoformat` branch concerns datetime objects,
which serialize to their string form). -/
structure RawStatus where
  id : Value
  account : Option RawAccount
  reblog : Option RawReblog
  created_at : Value
  language : Value
  content : Option Value
  in_reply_to_id : Value
  mentions : List RawMention
  tags : List RawTag
  replies_count : Value
  reblogs_count : Value
  favourites_count : Value
  url : Value
deriving DecidableEq

structure Account where
  id : Value
  acct : Value
  username : Value
  display_name : Value
  url : Value
deriving DecidableEq

structure Status where
  id : Value
  created_at : Value
  language : Value
  content_html : Value
  in_reply_to_id : Value
  reblog_of_id : Value
  account : Account
  mentions : List Value
  tags : List Value
  replies_count : Value
  reblogs_count : Value
  favourites_count : Value
  url : Value
deriving DecidableEq

/-- `normalize_status` (collect_keyword_posts.py lines 41-68). -/
def normalize_status (s : RawStatus) : Status :=
  let acct := s.account.getD ⟨.null, .null, .null, .null, .null⟩
  { id := s.id
    created_at := s.created_at
    language := s.language
    content_html := s.content.getD (.str "")
    in_reply_to_id := s.in_reply_to_id
    reblog_of_id := (s.reblog.map (fun r => r.id)).getD .null
    account := ⟨acct.id, acct.acct, acct.username, acct.display_name, acct.url⟩
    mentions := s.mentions.map (fun m => m.acct)
    tags := s.tags.map (fun t => t.name)
    replies_count := s.replies_count
    reblogs_count := s.reblogs_count
    favourites_count := s.favourites_count
    url := s.url }

/-- `_add_status(s, seen, out)` (collect_keyword_posts.py lines 71-78):
the seen set is modeled as a list with Python (hash-)equality membership. -/
def addStatus (s : RawStatus) (seen : List Value) (out : List Status) :
    Bool × List Value × List Status :=
  if seen.any (fun x => pyEq x s.id) then (false, seen, out)
  else (true, s.id :: seen, out ++ [normalize_status s])

/-- Run `_add_status` over a stream of statuses (as the hashtag/context
collection loops do), threading the seen set and output list. -/
def admitAll (ss : List RawStatus) (seen : List Value) (out : List Status) :
    List Value × List Status :=
  ss.foldl (fun st s => (addStatus s st.1 st.2).2) (seen, out)

/-- The first occurrence of each identifier, in stream order — the
specification-side description of "order of first admission". -/
def firstOccurrences : List RawStatus → List Value → List RawStatus
  | [], _ => []
  | s :: t, seen =>
    if seen.any (fun x => pyEq x s.id) then firstOccurrences t seen
    else s :: firstOccurrences t (s.id :: seen)

theorem admitAll_eq_firstOccurrences (ss : List RawStatus) :
    ∀ (seen : List Value) (out : List Status),
      (admitAll ss seen out).2 = out ++ (firstOccurrences ss seen).map normalize_status := by
  induction ss with
  | nil => intro seen out; simp [admitAll, firstOccurrences]
  | cons s t ih =>
    intro seen out
    by_cases h : seen.any (fun x => pyEq x s.id) = true
    · show (admitAll t (addStatus s seen out).2.1 (addStatus s seen out).2.2).2 = _
      rw [show addStatus s seen out = (false, seen, out) from by simp [addStatus, h]]
      rw [show firstOccurrences (s :: t) seen = firstOccurrences t seen from by
        simp [firstOccurrences, h]]
      exact ih seen out
    · show (admitAll t (addStatus s seen out).2.1 (addStatus s seen out).2.2).2 = _
      rw [show addStatus s seen out
          = (true, s.id :: seen, out ++ [normalize_status s]) from by simp [addStatus, h]]
      rw [show firstOccurrences (s :: t) seen
          = s :: firstOccurrences t (s.id :: seen) from by simp [firstOccurrences, h]]
      rw [ih (s.id :: seen) (out ++ [normalize_status s])]
      simp

theorem mem_firstOccurrences_not_seen (t : List RawStatus) :
    ∀ (seen : List Value) (b : RawStatus), b ∈ firstOccurrences t seen →
      seen.any (fun y => pyEq y b.id) = false := by
  induction t with
  | nil => intro seen b hb; cases hb
  | cons s t' ih =>
    intro seen b hb
    by_cases h : seen.any (fun x => pyEq x s.id) = true
    · rw [show firstOccurrences (s :: t') seen = firstOccurrences t' seen from by
        simp [firstOccurrences, h]] at hb
      exact ih seen b hb
    · rw [show firstOccurrences (s :: t') seen
          = s :: firstOccurrences t' (s.id :: seen) from by simp [firstOccurrences, h]] at hb
      rcases List.mem_cons.1 hb with hb | hb
      · subst hb; exact Bool.not_eq_true _ ▸ (by simpa using h)
      · have := ih (s.id :: seen) b hb
        simp only [List.any_cons, Bool.or_eq_false_iff] at this
        exact this.2

theorem firstOccurrences_pairwise (t : List RawStatus) :
    ∀ (seen : List Value),
      List.Pairwise (fun a b => pyEq a.id b.id = false) (firstOccurrences t seen) := by
  induction t with
  | nil => intro seen; simp [firstOccurrences]
  | cons s t' ih =>
    intro seen
    by_cases h : seen.any (fun x => pyEq x s.id) = true
    · rw [show firstOccurrences (s :: t') seen = firstOccurrences t' seen from by
        simp [firstOccurrences, h]]
      exact ih seen
    · rw [show firstOccurrences (s :: t') seen
          = s :: firstOccurrences t' (s.id :: seen) from by simp [firstOccurrences, h]]
      refine List.pairwise_cons.2 ⟨?_, ih (s.id :: seen)⟩
      intro b hb
      have := mem_firstOccurrences_not_seen t' (s.id :: seen) b hb
      simp only [List.any_cons, Bool.or_eq_false_iff] at this
      exact this.1

/-- C4: `_add_status` admits the first occurrence of each identifier exactly
once (returning true and appending the normalized record), returns false with
no mutation of seen-set or output on every repeat, and running it over any
stream produces exactly the normalized first occurrences in admission order
(so the ids of the output records are pairwise distinct — the same identifier
admitted from two pages yields one record). -/
theorem C4_add_status_dedup (ss : List RawStatus) :
    (∀ (s : RawStatus) (seen : List Value) (out : List Status),
      seen.any (fun x => pyEq x s.id) = true → addStatus s seen out = (false, seen, out))
    ∧ (∀ (s : RawStatus) (seen : List Value) (out : List Status),
      seen.any (fun x => pyEq x s.id) = false →
        addStatus s seen out = (true, s.id :: seen, out ++ [normalize_status s]))
    ∧ (admitAll ss [] []).2 = (firstOccurrences ss []).map normalize_status
    ∧ List.Pairwise (fun a b => pyEq a.id b.id = false) (firstOccurrences ss []) := by
  refine ⟨?_, ?_, ?_, firstOccurrences_pairwise ss []⟩
  · intro s seen out h; simp [addStatus, h]
  · intro s seen out h; simp [addStatus, h]
  · simpa using admitAll_eq_firstOccurrences ss [] []

/-- A raw status with only the id set. -/
def rawS (i : Value) : RawStatus :=
  { id := i, account := none, reblog := none, created_at := .null,
    language := .null, content := none, in_reply_to_id := .null,
    mentions := [], tags := [], replies_count := .null, reblogs_count := .null,
    favourites_count := .null, url := .null }

/-- Concrete instantiation of C4: admitting id "1" twice (as from two
different pages) yields exactly one output record, and the repeated admit
returns false without mutating the state. -/
theorem C4_witness :
    (admitAll [rawS (.str "1"), rawS (.str "1")] [] []).2
      = [normalize_status (rawS (.str "1"))]
    ∧ addStatus (rawS (.str "1")) [Value.str "1"] [normalize_status (rawS (.str "1"))]
      = (false, [Value.str "1"], [normalize_status (rawS (.str "1"))]) := by
  have h := C4_add_status_dedup [rawS (.str "1"), rawS (.str "1")]
  refine ⟨?_, h.1 (rawS (.str "1")) [Value.str "1"] [normalize_status (rawS (.str "1"))]
    (by decide)⟩
  rw [h.2.2.1]
  decide

/-! ### collect_users.py: normalize_user -/

structure RawUser where
  id : Value
  acct : Value
  username : Value
  display_name : Value
  url : Value
  followers_count : Value
  following_count : Value
  statuses_count : Value
  note : Value
  bot : Value
deriving DecidableEq

structure UserRec where
  id : Value
  acct : Value
  username : Value
  display_name : Value
  url : Value
  followers_count : Value
  following_count : Value
  statuses_count : Value
  note_html : Value
  bot : Value
deriving DecidableEq

/-- `normalize_user` (collect_users.py lines 30-42): every field is read
with `.get`, defaulting to null when absent. -/
def normalize_user (a : RawUser) : UserRec :=
  { id := a.id, acct := a.acct, username := a.username,
    display_name := a.display_name, url := a.url,
    followers_count := a.followers_count, following_count := a.following_count,
    statuses_count := a.statuses_count, note_html := a.note, bot := a.bot }

/-- A raw user with only the id set. -/
def rawU (i : Value) : RawUser :=
  { id := i, acct := .null, username := .null, display_name := .null,
    url := .null, followers_count := .null, following_count := .null,
    statuses_count := .null, note := .null, bot := .null }

/-- C7 as stated is false: the normalizers do not coerce identifiers to
string form. A raw status whose id is the number 5 normalizes to a record
whose id is still the number 5, not the string "5" (string coercion happens
only later, in the graph builders). -/
theorem C7_counterexample :
    (normalize_status (rawS (.num 5))).id = Value.num 5
    ∧ (normalize_user (rawU (.num 5))).id = Value.num 5
    ∧ Value.num 5 ≠ Value.str "5"
    ∧ Value.num 5 ≠ Value.str (pyStr (Value.num 5)) := by decide

/-- C7 amended: the normalizers are total Lean functions on the modeled
loosely-typed records (`normalize_status` additionally requires the id key,
which it indexes unconditionally; `normalize_user` reads every field with
`.get`). They produce the fixed field set; absent optional fields become
explicit null (or "" for content); identifiers are carried through
unchanged rather than coerced to strings. -/
theorem C7_normalizers_total_passthrough (s : RawStatus) (a : RawUser) :
    (normalize_status s).id = s.id
    ∧ (s.account = none →
        (normalize_status s).account = ⟨.null, .null, .null, .null, .null⟩)
    ∧ (s.reblog = none → (normalize_status s).reblog_of_id = .null)
    ∧ (s.content = none → (normalize_status s).content_html = .str "")
    ∧ (normalize_user a).id = a.id
    ∧ (normalize_user a).note_html = a.note := by
  refine ⟨rfl, ?_, ?_, ?_, rfl, rfl⟩
  · intro h; simp [normalize_status, h]
  · intro h; simp [normalize_status, h]
  · intro h; simp [normalize_status, h]

/-- Concrete instantiation of the amended C7. -/
theorem C7_witness :
    (normalize_status (rawS (.str "7"))).id = Value.str "7"
    ∧ (normalize_status (rawS (.str "7"))).reblog_of_id = Value.null
    ∧ (normalize_status (rawS (.str "7"))).content_html = Value.str "" := by
  have h := C7_normalizers_total_passthrough (rawS (.str "7")) (rawU .null)
  exact ⟨h.1, h.2.2.1 rfl, h.2.2.2.1 rfl⟩

/-! ### step5_content_analysis.py: parse_keywords (lines 75-94) -/

/-- ASCII uppercase test (code points 65-90). -/
def isAsciiUpper (c : Char) : Bool := decide (65 ≤ c.toNat ∧ c.toNat ≤ 90)

/-- Python `\s` / `str.isspace` over ASCII: space, tab, LF, CR, VT, FF. -/
def isPySpace (c : Char) : Bool :=
  decide (c.toNat = 32 ∨ c.toNat = 9 ∨ c.toNat = 10 ∨ c.toNat = 13 ∨
    c.toNat = 11 ∨ c.toNat = 12)

/-- Python `str.lower` on one character (ASCII range). -/
def pyLowerChar (c : Char) : Char :=
  if 65 ≤ c.toNat ∧ c.toNat ≤ 90 then Char.ofNat (c.toNat + 32) else c

def pyLower (s : String) : String := String.mk (s.data.map pyLowerChar)

/-- Python `str.strip()`: drop leading and trailing whitespace. -/
def stripList (l : List Char) : List Char :=
  ((l.dropWhile isPySpace).reverse.dropWhile isPySpace).reverse

def pyStrip (s : String) : String := String.mk (stripList s.data)

/-- A character kept by `re.sub(r"[^a-z0-9\-\s\.]+", "", k)`:
a-z (97-122), 0-9 (48-57), hyphen (45), dot (46) or whitespace. -/
def allowedChar (c : Char) : Bool :=
  decide ((97 ≤ c.toNat ∧ c.toNat ≤ 122) ∨ (48 ≤ c.toNat ∧ c.toNat ≤ 57) ∨
    c.toNat = 45 ∨ c.toNat = 46) || isPySpace c

/-- `re.sub(r"^[#@]", "", k)`: remove one leading '#' or '@'. -/
def stripHashAt : List Char → List Char
  | [] => []
  | c :: rest => if c == '#' || c == '@' then rest else c :: rest

/-- `k = re.sub(r"^[#@]", "", k.lower())` followed by
`k = re.sub(r"[^a-z0-9\-\s\.]+", "", k).strip()`. -/
def cleanKw (k : String) : String :=
  String.mk (stripList ((stripHashAt (pyLower k).data).filter allowedChar))

def stopJson : List String := ["ai", "tech", "technology", "news", "today", "post"]

def stopFb : List String := ["ai", "technology"]

/-- The main cleaning loop over the loosely-typed keyword candidates.
`k.lower()` exists only on strings: a non-string entry raises an uncaught
AttributeError outside the try block, so the call returns no value —
modeled as `none`. -/
def cleanLoopLoose : List Value → List String → Option (List String)
  | [], cleaned => some cleaned
  | .str k0 :: t, cleaned =>
    cleanLoopLoose t
      (if !(cleanKw k0).isEmpty && !(stopJson.contains (cleanKw k0))
          && !(cleaned.contains (cleanKw k0))
       then cleaned ++ [cleanKw k0] else cleaned)
  | _ :: _, _ => none

/-- The fallback loop over the post's hashtags, with its early exit once
three keywords are collected. -/
def fallbackLoop : List String → List String → List String
  | cleaned, [] => cleaned
  | cleaned, t :: ts =>
    let tc := pyStrip (pyLower t)
    let cleaned' :=
      if !tc.isEmpty && !(cleaned.contains tc) && !(stopFb.contains tc)
      then cleaned ++ [tc] else cleaned
    if 3 ≤ cleaned'.length then cleaned' else fallbackLoop cleaned' ts

/-- The keyword source of `parse_keywords`. `json.loads(raw)` guarantees
only a JSON value (`response_format` enforces a JSON object, not the
keywords schema), so `obj.get("keywords") or []` may be a list whose
entries are scalars of any type (`jsonList`), or a non-list scalar
(`jsonScalar`: a falsy one is replaced by `[]`, a non-empty string is
iterated character by character, a truthy number/boolean is not iterable
and raises); when JSON parsing raised, the loop instead runs over the
comma-split of the raw text (`rawText`). A JSON object as the keywords
value iterates over its keys and behaves like `jsonList` of those key
strings; a container entry raises at `k.lower()` like the non-string
scalars. -/
inductive RawKeywords where
  | jsonList (kws : List Value)
  | jsonScalar (v : Value)
  | rawText (raw : String)

/-- `[x.strip() for x in raw.split(",") if x.strip()]`. -/
def commaSplit (raw : String) : List String :=
  ((raw.splitOn ",").map pyStrip).filter (fun x => !x.isEmpty)

/-- The iterable the cleaning loop runs over, or `none` when even entering
the loop raises (`for k in kws` on a truthy non-iterable: TypeError). -/
def kwEntries : RawKeywords → Option (List Value)
  | .jsonList l => some l
  | .jsonScalar v =>
    if pyTruthy v then
      match v with
      | .str s => some (s.data.map (fun c => Value.str (String.mk [c])))
      | _ => none
    else some []
  | .rawText raw => some ((commaSplit raw).map .str)

/-- The tail of `parse_keywords` after the cleaning loop: the hashtag
fallback when fewer than three keywords were kept, then `cleaned[:3]`.
A raise in the loop (`none`) propagates. -/
def finishKeywords (tags : List String) : Option (List String) → Option (List String)
  | none => none
  | some cleaned =>
    some ((if cleaned.length < 3 then fallbackLoop cleaned tags else cleaned).take 3)

/-- `parse_keywords` (step5_content_analysis.py lines 75-94); `none` means
the Python call raises instead of returning a list. -/
def parse_keywords (r : RawKeywords) (fallback_tags : List String) :
    Option (List String) :=
  match kwEntries r with
  | none => none
  | some kws => finishKeywords fallback_tags (cleanLoopLoose kws [])

theorem charOfNat_toNat (n : Nat) (h : n < 55296) : (Char.ofNat n).toNat = n := by
  unfold Char.ofNat
  rw [dif_pos (Or.inl h)]
  rfl

theorem allowedChar_not_upper (c : Char) (h : allowedChar c = true) :
    isAsciiUpper c = false := by
  simp only [allowedChar, isPySpace, Bool.or_eq_true, decide_eq_true_eq] at h
  simp only [isAsciiUpper, decide_eq_false_iff_not]
  omega

theorem pyLowerChar_not_upper (c : Char) : isAsciiUpper (pyLowerChar c) = false := by
  unfold pyLowerChar
  split
  · simp only [isAsciiUpper, decide_eq_false_iff_not]
    rw [charOfNat_toNat (c.toNat + 32) (by omega)]
    omega
  · simp only [isAsciiUpper, decide_eq_false_iff_not]
    omega

theorem mem_stripList (l : List Char) (c : Char) (h : c ∈ stripList l) : c ∈ l := by
  unfold stripList at h
  rw [List.mem_reverse] at h
  have h1 := (List.dropWhile_sublist (l := (l.dropWhile isPySpace).reverse) isPySpace).mem h
  rw [List.mem_reverse] at h1
  exact (List.dropWhile_sublist isPySpace).mem h1

theorem cleanKw_not_upper (k : String) :
    ∀ c ∈ (cleanKw k).data, isAsciiUpper c = false := by
  intro c hc
  rw [show (cleanKw k).data
      = stripList ((stripHashAt (pyLower k).data).filter allowedChar) from rfl] at hc
  exact allowedChar_not_upper c (List.mem_filter.1 (mem_stripList _ c hc)).2

theorem pyStrip_pyLower_not_upper (t : String) :
    ∀ c ∈ (pyStrip (pyLower t)).data, isAsciiUpper c = false := by
  intro c hc
  have h1 : c ∈ (pyLower t).data := mem_stripList _ c hc
  obtain ⟨c0, _, rfl⟩ := List.mem_map.1 h1
  exact pyLowerChar_not_upper c0

/-- All entries of the accumulated `cleaned` list stay nonempty,
ASCII-uppercase-free and pairwise distinct through the main loop; a
non-string entry yields no result at all. -/
theorem cleanLoopLoose_invariant (kws : List Value) :
    ∀ (acc out : List String),
      cleanLoopLoose kws acc = some out →
      (∀ k ∈ acc, k ≠ "" ∧ ∀ c ∈ k.data, isAsciiUpper c = false) → acc.Nodup →
      (∀ k ∈ out, k ≠ "" ∧ ∀ c ∈ k.data, isAsciiUpper c = false) ∧ out.Nodup := by
  induction kws with
  | nil =>
    intro acc out h h1 h2
    obtain rfl : acc = out := Option.some.inj h
    exact ⟨h1, h2⟩
  | cons v t ih =>
    intro acc out h h1 h2
    cases v with
    | null => exact Option.noConfusion h
    | num n => exact Option.noConfusion h
    | bool b => exact Option.noConfusion h
    | str k0 =>
      rw [show cleanLoopLoose (Value.str k0 :: t) acc
          = cleanLoopLoose t
              (if !(cleanKw k0).isEmpty && !(stopJson.contains (cleanKw k0))
                  && !(acc.contains (cleanKw k0))
               then acc ++ [cleanKw k0] else acc) from rfl] at h
      split at h
      · rename_i hcond
        simp only [Bool.and_eq_true, Bool.not_eq_true'] at hcond
        refine ih _ out h ?_ ?_
        · intro k hk
          rcases List.mem_append.1 hk with h' | h'
          · exact h1 k h'
          · rw [List.mem_singleton.1 h']
            refine ⟨?_, cleanKw_not_upper k0⟩
            intro hempty
            rw [← String.isEmpty_iff] at hempty
            rw [hempty] at hcond
            exact absurd hcond.1.1 (by simp)
        · rw [List.nodup_append]
          refine ⟨h2, List.nodup_singleton _, ?_⟩
          intro x hx hx'
          rw [List.mem_singleton.1 hx'] at hx
          have : acc.contains (cleanKw k0) = true := List.elem_eq_true_of_mem hx
          rw [hcond.2] at this
          cases this
      · exact ih _ out h h1 h2

/-- When every entry of the keyword list is a string, the cleaning loop
returns (nothing raises). -/
theorem cleanLoopLoose_isSome (kws : List Value) :
    ∀ acc : List String, (∀ v ∈ kws, ∃ s, v = Value.str s) →
      (cleanLoopLoose kws acc).isSome = true := by
  induction kws with
  | nil => intro acc _; rfl
  | cons v t ih =>
    intro acc hall
    obtain ⟨s, rfl⟩ := hall v (List.mem_cons_self _ _)
    exact ih _ (fun v' hv' => hall v' (List.mem_cons_of_mem _ hv'))

/-- Same invariant through the hashtag fallback loop. -/
theorem fallbackLoop_invariant (tags : List String) :
    ∀ (acc : List String),
      (∀ k ∈ acc, k ≠ "" ∧ ∀ c ∈ k.data, isAsciiUpper c = false) → acc.Nodup →
      (∀ k ∈ fallbackLoop acc tags, k ≠ "" ∧ ∀ c ∈ k.data, isAsciiUpper c = false)
      ∧ (fallbackLoop acc tags).Nodup := by
  induction tags with
  | nil => intro acc h1 h2; exact ⟨h1, h2⟩
  | cons t ts ih =>
    intro acc h1 h2
    unfold fallbackLoop
    dsimp only
    have hstep : ∀ acc' : List String,
        (∀ k ∈ acc', k ≠ "" ∧ ∀ c ∈ k.data, isAsciiUpper c = false) → acc'.Nodup →
        (if 3 ≤ acc'.length then acc' else fallbackLoop acc' ts).Nodup ∧
        (∀ k ∈ (if 3 ≤ acc'.length then acc' else fallbackLoop acc' ts),
          k ≠ "" ∧ ∀ c ∈ k.data, isAsciiUpper c = false) := by
      intro acc' ha hn
      split
      · exact ⟨hn, ha⟩
      · exact ⟨(ih acc' ha hn).2, (ih acc' ha hn).1⟩
    split
    · rename_i hcond
      simp only [Bool.and_eq_true, Bool.not_eq_true'] at hcond
      have hgood : ∀ k ∈ acc ++ [pyStrip (pyLower t)],
          k ≠ "" ∧ ∀ c ∈ k.data, isAsciiUpper c = false := by
        intro k hk
        rcases List.mem_append.1 hk with h | h
        · exact h1 k h
        · rw [List.mem_singleton.1 h]
          refine ⟨?_, pyStrip_pyLower_not_upper t⟩
          intro hempty
          rw [← String.isEmpty_iff] at hempty
          rw [hempty] at hcond
          exact absurd hcond.1.1 (by simp)
      have hnd : (acc ++ [pyStrip (pyLower t)]).Nodup := by
        rw [List.nodup_append]
        refine ⟨h2, List.nodup_singleton _, ?_⟩
        intro x hx hx'
        rw [List.mem_singleton.1 hx'] at hx
        have : acc.contains (pyStrip (pyLower t)) = true := List.elem_eq_true_of_mem hx
        rw [hcond.1.2] at this
        cases this
      exact ⟨(hstep _ hgood hnd).2, (hstep _ hgood hnd).1⟩
    · exact ⟨(hstep acc h1 h2).2, (hstep acc h1 h2).1⟩

/-- C10 as stated is false: `parse_keywords` does not return a list for
every raw model output string. The reachable reply `{"keywords": [1]}`
parses as JSON, so the comma-split fallback is not taken, and `k.lower()`
on the integer entry raises an uncaught AttributeError outside the try
block; the call raises instead of returning (modeled as `none`). A string
entry before the bad one does not save the call, and a reply whose
keywords value is the number 5 raises TypeError at the loop header. -/
theorem C10_counterexample :
    parse_keywords (.jsonList [Value.num 1]) [] = none
    ∧ parse_keywords (.jsonList [Value.str "x", Value.num 1]) ["tag"] = none
    ∧ parse_keywords (.jsonScalar (Value.num 5)) [] = none := by decide

/-- C10 amended: whenever `parse_keywords` returns a list — in particular
on every comma-split fallback and on every JSON reply whose keywords
entries are all strings, for which the second conjunct guarantees a
result — that list has at most three keywords, each nonempty, free of
ASCII uppercase letters, and pairwise distinct; but a JSON reply whose
keywords list contains a non-string entry (or whose keywords value is a
truthy non-iterable scalar) makes the code raise instead of returning. -/
theorem C10_parse_keywords_wellformed (r : RawKeywords) (tags : List String) :
    (∀ res : List String, parse_keywords r tags = some res →
      res.length ≤ 3
      ∧ (∀ k ∈ res, k ≠ "" ∧ ∀ c ∈ k.data, isAsciiUpper c = false)
      ∧ res.Nodup)
    ∧ (∀ l, kwEntries r = some l → (∀ v ∈ l, ∃ s, v = Value.str s) →
        (parse_keywords r tags).isSome = true) := by
  constructor
  · intro res h
    unfold parse_keywords at h
    split at h
    · exact Option.noConfusion h
    · rename_i kws heq
      cases hc : cleanLoopLoose kws [] with
      | none =>
        rw [hc] at h
        exact Option.noConfusion h
      | some cleaned =>
        rw [hc] at h
        obtain rfl : ((if cleaned.length < 3 then fallbackLoop cleaned tags
            else cleaned).take 3) = res := Option.some.inj h
        have hbase := cleanLoopLoose_invariant kws [] cleaned hc
          (by intro k hk; cases hk) List.nodup_nil
        have hfinal : (∀ k ∈ (if cleaned.length < 3 then fallbackLoop cleaned tags
            else cleaned), k ≠ "" ∧ ∀ c ∈ k.data, isAsciiUpper c = false)
            ∧ (if cleaned.length < 3 then fallbackLoop cleaned tags
                else cleaned).Nodup := by
          split
          · exact fallbackLoop_invariant tags cleaned hbase.1 hbase.2
          · exact hbase
        refine ⟨?_, ?_, ?_⟩
        · rw [List.length_take]
          exact min_le_left _ _
        · intro k hk
          exact hfinal.1 k (List.take_subset 3 _ hk)
        · exact hfinal.2.sublist (List.take_sublist 3 _)
  · intro l hl hall
    unfold parse_keywords
    rw [hl]
    show (finishKeywords tags (cleanLoopLoose l [])).isSome = true
    have hs := cleanLoopLoose_isSome l [] hall
    cases hx : cleanLoopLoose l [] with
    | none =>
      rw [hx] at hs
      exact Bool.noConfusion hs
    | some c => rfl

/-- Concrete instantiation of the amended C10: a well-typed JSON reply
(keywords `["#LLM", "ai"]`, fallback tag `ChatGPT`) returns the
wellformed list `["llm", "chatgpt"]`, and an all-string keywords list
guarantees a returned value. -/
theorem C10_witness :
    parse_keywords (.jsonList [Value.str "#LLM", Value.str "ai"]) ["ChatGPT"]
      = some ["llm", "chatgpt"]
    ∧ ((["llm", "chatgpt"] : List String).length ≤ 3
      ∧ (∀ k ∈ (["llm", "chatgpt"] : List String),
          k ≠ "" ∧ ∀ c ∈ k.data, isAsciiUpper c = false)
      ∧ (["llm", "chatgpt"] : List String).Nodup)
    ∧ (parse_keywords (.jsonList [Value.str "x"]) []).isSome = true := by
  refine ⟨by decide, ?_, ?_⟩
  · exact (C10_parse_keywords_wellformed
      (.jsonList [Value.str "#LLM", Value.str "ai"]) ["ChatGPT"]).1
      ["llm", "chatgpt"] (by decide)
  · exact (C10_parse_keywords_wellformed (.jsonList [Value.str "x"]) []).2
      [Value.str "x"] rfl
      (fun v hv => ⟨"x", List.mem_singleton.1 hv⟩)

/-! ### build_friendship (build_networks.py lines 97-150) -/

/-- A record of data/users.json as read by `build_friendship`. `acct` is
kept apart because it is used as a dictionary key, for domain derivation
and for truthiness tests (`none` = absent or null). -/
structure User where
  id : Value
  acct : Option String
  username : Value
  display_name : Value
  url : Value
  followers_count : Value
  following_count : Value
  statuses_count : Value
deriving DecidableEq

/-- The characters after the first occurrence of `c`, or `none` when `c`
does not occur (`acct.split("@", 1)[1]` under the `"@" in acct` guard). -/
def afterFirst (c : Char) : List Char → Option (List Char)
  | [] => none
  | x :: t => if x = c then some t else afterFirst c t

/-- `domain_from_acct` (build_networks.py lines 37-43). -/
def domain_from_acct : Option String → String
  | none => "unknown"
  | some s =>
    if s.isEmpty then "unknown"
    else match afterFirst '@' s.data with
      | some rest => pyLower (String.mk rest)
      | none => "mastodon.social"

def optStrV : Option String → Value
  | none => .null
  | some s => .str s

def userNodeAttrs (u : User) : Attrs :=
  [("acct", optStrV u.acct),
   ("username", u.username),
   ("display_name", u.display_name),
   ("url", u.url),
   ("followers", u.followers_count),
   ("following", u.following_count),
   ("statuses", u.statuses_count),
   ("domain", .str (domain_from_acct u.acct))]

/-- An entry of the optional user_edges.json list. `src_id`/`dst_id` are
`null` when absent; `reason` is `none` when the key is absent (so that
`e.get("reason", "follow")` can default). -/
structure EdgeHint where
  src_id : Value
  dst_id : Value
  src_acct : Option String
  dst_acct : Option String
  reason : Option Value
deriving DecidableEq

/-- `id_by_acct[acct] = uid`, insertion ordered with in-place overwrite. -/
def setAcct : List (Option String × String) → Option String → String →
    List (Option String × String)
  | [], k, v => [(k, v)]
  | (k', v') :: t, k, v =>
    if k' = k then (k, v) :: t else (k', v') :: setAcct t k v

def acctMap (users : List User) : List (Option String × String) :=
  users.foldl (fun m u => setAcct m u.acct (pyStr u.id)) []

/-- `id_by_acct.get(k)`. -/
def lookupAcct (m : List (Option String × String)) (k : Option String) :
    Option String :=
  (m.find? (fun e => e.1 == k)).map (·.2)

/-- One iteration of the edge-hint loop:
`u = e.get("src_id") or id_by_acct.get(e.get("src_acct"))` (same for `v`),
`if not u or not v: continue`, `if u == v: continue`, and otherwise the
edge `(str(u), str(v))` with reason `e.get("reason", "follow")`. -/
def resolveHint (m : List (Option String × String)) (e : EdgeHint) :
    Option (String × String × Value) :=
  let u : Option Value :=
    if pyTruthy e.src_id then some e.src_id
    else (lookupAcct m e.src_acct).map .str
  let v : Option Value :=
    if pyTruthy e.dst_id then some e.dst_id
    else (lookupAcct m e.dst_acct).map .str
  match u, v with
  | some uv, some vv =>
    if !pyTruthy uv || !pyTruthy vv then none
    else if pyEq uv vv then none
    else some (pyStr uv, pyStr vv, e.reason.getD (.str "follow"))
  | _, _ => none

def hintStep (m : List (Option String × String)) (G : UGraph) (e : EdgeHint) :
    UGraph :=
  match resolveHint m e with
  | some r => G.addEdge r.1 r.2.1 [("reason", r.2.2)]
  | none => G

/-- The node-adding loop of `build_friendship`. -/
def userNodesGraph (users : List User) : UGraph :=
  users.foldl (fun G u => G.addNode (pyStr u.id) (userNodeAttrs u)) ⟨[], []⟩

/-- `by_domain.setdefault(domain, []).append(n)` on an insertion-ordered
dict keyed by the attribute value. -/
def appendDom : List (Value × List String) → Value → String →
    List (Value × List String)
  | [], d, n => [(d, [n])]
  | (d', l) :: t, d, n =>
    if d' = d then (d', l ++ [n]) :: t else (d', l) :: appendDom t d n

/-- `by_domain` built from `G.nodes(data=True)`:
key is `data.get("domain", "unknown")`. -/
def byDomain (ns : NodeList) : List (Value × List String) :=
  ns.foldl (fun bd p => appendDom bd (getAttrD p.2 "domain" (.str "unknown")) p.1) []

/-- `for i in range(len(ids) - 1): (ids[i], ids[i+1])`. -/
def consecPairs : List String → List (String × String)
  | a :: b :: t => (a, b) :: consecPairs (b :: t)
  | _ => []

/-- The same-domain fallback loop of `build_friendship`. -/
def fallbackStep (G : UGraph) : UGraph :=
  (byDomain G.nodes).foldl (fun G p =>
    (consecPairs p.2).foldl (fun G q =>
      G.addEdge q.1 q.2 [("reason", .str "same_domain")]) G) G

/-- The node-adding loop followed by the edge-hint loop (`if user_edges:`
is false both for an absent file and for an empty list, so folding over
`user_edges.getD []` is the same control flow). -/
def hintPhase (users : List User) (user_edges : Option (List EdgeHint)) : UGraph :=
  (user_edges.getD []).foldl (hintStep (acctMap users)) (userNodesGraph users)

def build_friendship (users : List User) (user_edges : Option (List EdgeHint)) :
    UGraph :=
  if (hintPhase users user_edges).edges.length = 0 then
    fallbackStep (hintPhase users user_edges)
  else hintPhase users user_edges

/-- The edge hints that survive resolution, in processing order. -/
def resolvedHints (users : List User) (ue : Option (List EdgeHint)) :
    List (String × String × Value) :=
  (ue.getD []).filterMap (resolveHint (acctMap users))

/-- Insert resolved hints as reason-tagged undirected edges. -/
def insertReasons (rs : List (String × String × Value)) (G : UGraph) : UGraph :=
  rs.foldl (fun G r => G.addEdge r.1 r.2.1 [("reason", r.2.2)]) G

/-- The flat list of fallback pairs, bucket by bucket. -/
def fallbackPairs (ns : NodeList) : List (String × String) :=
  (byDomain ns).flatMap (fun p => consecPairs p.2)

/-! ### Lemmas about undirected edge insertion and the friendship build -/

theorem mem_setEdgeU_endpoints {P : String → String → Prop}
    (es : EdgeList) (u v : String) (w : Attrs)
    (hes : ∀ e ∈ es, P e.1 e.2.1) (huv : P u v) :
    ∀ e ∈ setEdgeU es u v w, P e.1 e.2.1 := by
  induction es with
  | nil =>
    intro e he
    simp only [setEdgeU, List.mem_singleton] at he
    subst he; exact huv
  | cons hd t ih =>
    obtain ⟨a, b, d⟩ := hd
    intro e he
    simp only [setEdgeU] at he
    split at he
    · rcases List.mem_cons.1 he with h | h
      · subst h; exact hes (a, b, d) (List.mem_cons_self _ _)
      · exact hes e (List.mem_cons_of_mem _ h)
    · rcases List.mem_cons.1 he with h | h
      · subst h; exact hes (a, b, d) (List.mem_cons_self _ _)
      · exact ih (fun e' he' => hes e' (List.mem_cons_of_mem _ he')) e h

theorem setEdgeU_fresh (es : EdgeList) (u v : String) (w : Attrs)
    (h : ∀ e ∈ es, ukeyMatch e.1 e.2.1 u v = false) :
    setEdgeU es u v w = es ++ [(u, v, w)] := by
  induction es with
  | nil => rfl
  | cons hd t ih =>
    obtain ⟨a, b, d⟩ := hd
    simp only [setEdgeU]
    rw [if_neg (by rw [h (a, b, d) (List.mem_cons_self _ _)]; exact Bool.false_ne_true)]
    exact congrArg _ (ih (fun e he => h e (List.mem_cons_of_mem _ he)))

theorem setEdgeU_ne_nil (es : EdgeList) (u v : String) (w : Attrs) :
    setEdgeU es u v w ≠ [] := by
  cases es with
  | nil => simp [setEdgeU]
  | cons hd t =>
    obtain ⟨a, b, d⟩ := hd
    simp only [setEdgeU]
    split <;> simp

theorem UGraph_nodeFold_edges (l : List User) (G : UGraph) :
    (l.foldl (fun G u => G.addNode (pyStr u.id) (userNodeAttrs u)) G).edges
      = G.edges := by
  induction l generalizing G with
  | nil => rfl
  | cons u t ih => simpa using ih (G.addNode (pyStr u.id) (userNodeAttrs u))

theorem hintFold_eq (m : List (Option String × String)) (hs : List EdgeHint) :
    ∀ G : UGraph, hs.foldl (hintStep m) G
      = insertReasons (hs.filterMap (resolveHint m)) G := by
  induction hs with
  | nil => intro G; rfl
  | cons e t ih =>
    intro G
    simp only [List.foldl_cons, List.filterMap_cons]
    cases hr : resolveHint m e with
    | none =>
      rw [show hintStep m G e = G from by simp [hintStep, hr]]
      exact ih G
    | some r =>
      rw [show hintStep m G e = G.addEdge r.1 r.2.1 [("reason", r.2.2)] from by
        simp [hintStep, hr]]
      exact ih _

theorem insertReasons_edges_ne_nil_aux (rs : List (String × String × Value)) :
    ∀ G : UGraph, G.edges ≠ [] → (insertReasons rs G).edges ≠ [] := by
  induction rs with
  | nil => intro G h; exact h
  | cons r t ih =>
    intro G _
    exact ih _ (setEdgeU_ne_nil _ _ _ _)

theorem insertReasons_edges_ne_nil (rs : List (String × String × Value))
    (hne : rs ≠ []) (G : UGraph) : (insertReasons rs G).edges ≠ [] := by
  cases rs with
  | nil => exact absurd rfl hne
  | cons r t =>
    exact insertReasons_edges_ne_nil_aux t _ (setEdgeU_ne_nil _ _ _ _)

/-- The two control-flow outcomes of `build_friendship`: the same-domain
fallback runs exactly when no edge hint resolved (in particular when the
hint list was absent or empty). -/
theorem hintPhase_eq (users : List User) (ue : Option (List EdgeHint)) :
    hintPhase users ue = insertReasons (resolvedHints users ue) (userNodesGraph users) := by
  unfold hintPhase resolvedHints
  exact hintFold_eq (acctMap users) (ue.getD []) (userNodesGraph users)

theorem build_friendship_cases (users : List User) (ue : Option (List EdgeHint)) :
    (resolvedHints users ue = [] →
      build_friendship users ue = fallbackStep (userNodesGraph users))
    ∧ (resolvedHints users ue ≠ [] →
      build_friendship users ue
        = insertReasons (resolvedHints users ue) (userNodesGraph users)) := by
  have hedges : (userNodesGraph users).edges = [] :=
    UGraph_nodeFold_edges users ⟨[], []⟩
  constructor
  · intro h
    unfold build_friendship
    rw [hintPhase_eq, h]
    rw [show insertReasons [] (userNodesGraph users) = userNodesGraph users from rfl]
    rw [if_pos (by rw [hedges]; rfl)]
  · intro h
    unfold build_friendship
    rw [hintPhase_eq]
    rw [if_neg ?_]
    intro hlen
    exact insertReasons_edges_ne_nil _ h _ (List.length_eq_zero.1 hlen)

/-! ### The fallback pass adds exactly one path per domain bucket -/

theorem appendDom_flatMap (bd : List (Value × List String)) (d : Value) (n : String) :
    List.Perm ((appendDom bd d n).flatMap (fun p => p.2))
      ((bd.flatMap (fun p => p.2)) ++ [n]) := by
  induction bd with
  | nil => simp [appendDom]
  | cons hd t ih =>
    obtain ⟨d', l⟩ := hd
    simp only [appendDom]
    split
    · simp only [List.flatMap_cons]
      rw [List.append_assoc, List.append_assoc]
      exact List.Perm.append_left l List.perm_append_comm
    · simp only [List.flatMap_cons]
      rw [List.append_assoc]
      exact List.Perm.append_left l ih

theorem byDomain_flatMap_perm (ns : NodeList) :
    List.Perm ((byDomain ns).flatMap (fun p => p.2)) (ns.map Prod.fst) := by
  suffices h : ∀ (l : NodeList) (bd : List (Value × List String)),
      List.Perm ((l.foldl (fun bd p =>
          appendDom bd (getAttrD p.2 "domain" (.str "unknown")) p.1) bd).flatMap
            (fun p => p.2))
        ((bd.flatMap (fun p => p.2)) ++ l.map Prod.fst) by
    simpa [byDomain] using h ns []
  intro l
  induction l with
  | nil => intro bd; simp
  | cons p t ih =>
    intro bd
    simp only [List.foldl_cons, List.map_cons]
    refine (ih (appendDom bd (getAttrD p.2 "domain" (.str "unknown")) p.1)).trans ?_
    refine (List.Perm.append_right (t.map Prod.fst)
      (appendDom_flatMap bd (getAttrD p.2 "domain" (.str "unknown")) p.1)).trans ?_
    rw [List.append_assoc]
    exact List.Perm.refl _

theorem addNode_keys (ns : NodeList) (k : String) (a : Attrs) :
    (addNode ns k a).map Prod.fst = ns.map Prod.fst ∨
    ((addNode ns k a).map Prod.fst = ns.map Prod.fst ++ [k]
      ∧ k ∉ ns.map Prod.fst) := by
  induction ns with
  | nil => exact Or.inr ⟨rfl, by simp⟩
  | cons hd t ih =>
    obtain ⟨k', a'⟩ := hd
    simp only [addNode]
    split
    · rename_i hk
      subst hk
      exact Or.inl (by simp)
    · rename_i hk
      rcases ih with h | ⟨h, hni⟩
      · exact Or.inl (by simp [h])
      · refine Or.inr ⟨by simp [h], ?_⟩
        simp only [List.map_cons, List.mem_cons]
        rintro (h' | h')
        · exact hk h'.symm
        · exact hni h'

theorem nodeFoldU_keys_nodup (l : List User) :
    ∀ G : UGraph, (G.nodes.map Prod.fst).Nodup →
      (((l.foldl (fun G u => G.addNode (pyStr u.id) (userNodeAttrs u)) G)).nodes.map
        Prod.fst).Nodup := by
  induction l with
  | nil => intro G h; exact h
  | cons u t ih =>
    intro G h
    refine ih _ ?_
    rcases addNode_keys G.nodes (pyStr u.id) (userNodeAttrs u) with hc | ⟨hc, hni⟩
    · exact hc ▸ h
    · rw [show (G.addNode (pyStr u.id) (userNodeAttrs u)).nodes
          = SocialGraph.addNode G.nodes (pyStr u.id) (userNodeAttrs u) from rfl, hc]
      rw [List.nodup_append]
      exact ⟨h, List.nodup_singleton _, fun x hx hx' =>
        hni ((List.mem_singleton.1 hx') ▸ hx)⟩

theorem userNodesGraph_keys_nodup (users : List User) :
    ((userNodesGraph users).nodes.map Prod.fst).Nodup :=
  nodeFoldU_keys_nodup users ⟨[], []⟩ (by simp)

theorem consecPairs_length (l : List String) :
    (consecPairs l).length = l.length - 1 := by
  induction l with
  | nil => rfl
  | cons a t ih =>
    cases t with
    | nil => rfl
    | cons b t2 =>
      simp only [consecPairs, List.length_cons]
      rw [ih]
      simp

theorem mem_consecPairs (l : List String) (q : String × String)
    (h : q ∈ consecPairs l) : q.1 ∈ l ∧ q.2 ∈ l := by
  induction l with
  | nil => cases h
  | cons a t ih =>
    cases t with
    | nil => cases h
    | cons b t2 =>
      simp only [consecPairs, List.mem_cons] at h
      rcases h with h | h
      · subst h
        exact ⟨List.mem_cons_self _ _, List.mem_cons_of_mem _ (List.mem_cons_self _ _)⟩
      · have := ih h
        exact ⟨List.mem_cons_of_mem _ this.1, List.mem_cons_of_mem _ this.2⟩

theorem ukeyMatch_iff (a b u v : String) :
    ukeyMatch a b u v = true ↔ ((a = u ∧ b = v) ∨ (a = v ∧ b = u)) := by
  simp [ukeyMatch]

theorem consecPairs_pairwise (l : List String) (h : l.Nodup) :
    List.Pairwise (fun q q' : String × String =>
      ukeyMatch q.1 q.2 q'.1 q'.2 = false) (consecPairs l) := by
  induction l with
  | nil => exact List.Pairwise.nil
  | cons a t ih =>
    cases t with
    | nil => exact List.Pairwise.nil
    | cons b t2 =>
      simp only [consecPairs]
      refine List.pairwise_cons.2 ⟨?_, ih (List.nodup_cons.1 h).2⟩
      intro q hq
      have hmem := mem_consecPairs _ q hq
      have hna : a ∉ b :: t2 := (List.nodup_cons.1 h).1
      rw [Bool.eq_false_iff]
      intro hmatch
      rcases (ukeyMatch_iff _ _ _ _).1 hmatch with ⟨h1, _⟩ | ⟨h1, _⟩
      · refine hna ?_
        rw [show a = q.1 from h1]
        exact hmem.1
      · refine hna ?_
        rw [show a = q.2 from h1]
        exact hmem.2

theorem mem_pairs_flatMap (bs : List (Value × List String)) (q : String × String)
    (h : q ∈ bs.flatMap (fun p => consecPairs p.2)) :
    q.1 ∈ bs.flatMap (fun p => p.2) ∧ q.2 ∈ bs.flatMap (fun p => p.2) := by
  rcases List.mem_flatMap.1 h with ⟨b, hb, hq⟩
  have := mem_consecPairs _ q hq
  exact ⟨List.mem_flatMap.2 ⟨b, hb, this.1⟩, List.mem_flatMap.2 ⟨b, hb, this.2⟩⟩

theorem pairs_flatMap_pairwise (bs : List (Value × List String))
    (h : (bs.flatMap (fun p => p.2)).Nodup) :
    List.Pairwise (fun q q' : String × String =>
      ukeyMatch q.1 q.2 q'.1 q'.2 = false)
      (bs.flatMap (fun p => consecPairs p.2)) := by
  induction bs with
  | nil => exact List.Pairwise.nil
  | cons b t ih =>
    simp only [List.flatMap_cons] at h ⊢
    rcases List.nodup_append.1 h with ⟨h1, h2, hdisj⟩
    refine List.pairwise_append.2 ⟨consecPairs_pairwise _ h1, ih h2, ?_⟩
    intro q hq q' hq'
    have hm := mem_consecPairs _ q hq
    have hm' := mem_pairs_flatMap t q' hq'
    rw [Bool.eq_false_iff]
    intro hmatch
    rcases (ukeyMatch_iff _ _ _ _).1 hmatch with ⟨e1, _⟩ | ⟨e1, _⟩
    · refine hdisj hm.1 ?_
      rw [show q.1 = q'.1 from e1]
      exact hm'.1
    · refine hdisj hm.1 ?_
      rw [show q.1 = q'.2 from e1]
      exact hm'.2

theorem insertPairs_edges (ps : List (String × String)) :
    ∀ G : UGraph,
      (∀ q ∈ ps, ∀ e ∈ G.edges, ukeyMatch e.1 e.2.1 q.1 q.2 = false) →
      List.Pairwise (fun q q' : String × String =>
        ukeyMatch q.1 q.2 q'.1 q'.2 = false) ps →
      (ps.foldl (fun G q =>
        G.addEdge q.1 q.2 [("reason", Value.str "same_domain")]) G).edges
        = G.edges ++ ps.map (fun q => (q.1, q.2, [("reason", Value.str "same_domain")])) := by
  induction ps with
  | nil => intro G _ _; simp
  | cons q t ih =>
    intro G hfresh hpw
    simp only [List.foldl_cons, List.map_cons]
    have hG' : (G.addEdge q.1 q.2 [("reason", Value.str "same_domain")]).edges
        = G.edges ++ [(q.1, q.2, [("reason", Value.str "same_domain")])] :=
      setEdgeU_fresh G.edges _ _ _ (fun e he => hfresh q (List.mem_cons_self _ _) e he)
    rw [ih _ ?_ (List.pairwise_cons.1 hpw).2]
    · rw [hG', List.append_assoc]
      rfl
    · intro q' hq' e he
      rw [hG'] at he
      rcases List.mem_append.1 he with h | h
      · exact hfresh q' (List.mem_cons_of_mem _ hq') e h
      · rw [List.mem_singleton.1 h]
        exact (List.pairwise_cons.1 hpw).1 q' hq'

theorem fallbackStep_eq_foldPairs (G : UGraph) :
    fallbackStep G = (fallbackPairs G.nodes).foldl
      (fun G q => G.addEdge q.1 q.2 [("reason", Value.str "same_domain")]) G := by
  unfold fallbackStep fallbackPairs
  generalize byDomain G.nodes = bs
  induction bs generalizing G with
  | nil => rfl
  | cons b t ih =>
    simp only [List.foldl_cons, List.flatMap_cons, List.foldl_append]
    exact ih _

/-- C2: the same-domain fallback runs iff zero edges resulted from hint
resolution, and when it runs the edge list is exactly the concatenation,
bucket by bucket, of the consecutive-pair paths, every edge tagged
`reason = same_domain`; a bucket of length n contributes exactly
`n - 1` pairs. When at least one hint resolves, the graph's edges are
exactly the inserted hint edges and the fallback adds nothing. -/
theorem C2_fallback_iff_and_path_counts (users : List User)
    (ue : Option (List EdgeHint)) :
    (resolvedHints users ue = [] →
      (build_friendship users ue).edges
        = (fallbackPairs (userNodesGraph users).nodes).map
            (fun q => (q.1, q.2, [("reason", Value.str "same_domain")]))
      ∧ ∀ b ∈ byDomain (userNodesGraph users).nodes,
          (consecPairs b.2).length = b.2.length - 1)
    ∧ (resolvedHints users ue ≠ [] →
      build_friendship users ue
        = insertReasons (resolvedHints users ue) (userNodesGraph users)
      ∧ (build_friendship users ue).edges ≠ []) := by
  have hedges : (userNodesGraph users).edges = [] :=
    UGraph_nodeFold_edges users ⟨[], []⟩
  constructor
  · intro h
    refine ⟨?_, fun b _ => consecPairs_length b.2⟩
    rw [(build_friendship_cases users ue).1 h, fallbackStep_eq_foldPairs]
    have hnd : ((byDomain (userNodesGraph users).nodes).flatMap (fun p => p.2)).Nodup :=
      ((byDomain_flatMap_perm (userNodesGraph users).nodes).nodup_iff).2
        (userNodesGraph_keys_nodup users)
    have hpw : List.Pairwise (fun q q' : String × String =>
        ukeyMatch q.1 q.2 q'.1 q'.2 = false)
        (fallbackPairs (userNodesGraph users).nodes) :=
      pairs_flatMap_pairwise _ hnd
    have hfresh : ∀ q ∈ fallbackPairs (userNodesGraph users).nodes,
        ∀ e ∈ (userNodesGraph users).edges, ukeyMatch e.1 e.2.1 q.1 q.2 = false := by
      intro q _ e he
      rw [hedges] at he
      cases he
    rw [insertPairs_edges (fallbackPairs (userNodesGraph users).nodes)
      (userNodesGraph users) hfresh hpw]
    rw [hedges]
    rfl
  · intro h
    refine ⟨(build_friendship_cases users ue).2 h, ?_⟩
    rw [(build_friendship_cases users ue).2 h]
    exact insertReasons_edges_ne_nil _ h _

/-- C8: with no resolving edge hints, the friendship graph — nodes, edge
set and reason attributes — depends only on the user list; any two runs
(even with different non-resolving hint lists) build the same graph. -/
theorem C8_fallback_deterministic (users : List User)
    (h1 h2 : Option (List EdgeHint))
    (e1 : resolvedHints users h1 = []) (e2 : resolvedHints users h2 = []) :
    build_friendship users h1 = build_friendship users h2 := by
  rw [(build_friendship_cases users h1).1 e1, (build_friendship_cases users h2).1 e2]

/-- A user record with only id and acct set. -/
def mkUser (i : Value) (a : Option String) : User :=
  { id := i, acct := a, username := .null, display_name := .null, url := .null,
    followers_count := .null, following_count := .null, statuses_count := .null }

/-- Two same-domain users and one on another domain. -/
def usersW : List User :=
  [mkUser (.str "a") (some "u1@x.com"), mkUser (.str "b") (some "u2@x.com"),
   mkUser (.str "c") (some "u3@y.com")]

/-- An edge hint that resolves on neither side. -/
def badHint : EdgeHint :=
  { src_id := .null, dst_id := .null, src_acct := some "missing@z",
    dst_acct := none, reason := none }

/-- Concrete instantiation of C2: with no hints, the x.com bucket of size 2
yields exactly one same_domain edge a-b and the y.com singleton bucket
yields none. -/
theorem C2_witness :
    resolvedHints usersW none = []
    ∧ (build_friendship usersW none).edges
        = [("a", "b", [("reason", Value.str "same_domain")])] := by
  have h := (C2_fallback_iff_and_path_counts usersW none).1 (by decide)
  refine ⟨by decide, ?_⟩
  rw [h.1]
  decide

/-- Concrete instantiation of C8: the run with no hint file and the run
with a hint list whose only hint fails to resolve build identical graphs. -/
theorem C8_witness :
    resolvedHints usersW (some [badHint]) = []
    ∧ build_friendship usersW none = build_friendship usersW (some [badHint]) := by
  exact ⟨by decide,
    C8_fallback_deterministic usersW none (some [badHint]) (by decide) (by decide)⟩

/-! ### C9: no parallel edges; later hints overwrite the reason -/

/-- No two stored edges share the same unordered endpoint pair. -/
def EdgeKeysDistinct (es : EdgeList) : Prop :=
  List.Pairwise (fun e e' => ukeyMatch e.1 e.2.1 e'.1 e'.2.1 = false) es

theorem ukeyMatch_symm (a b u v : String) :
    ukeyMatch a b u v = ukeyMatch u v a b := by
  cases h : ukeyMatch u v a b with
  | true =>
    refine (ukeyMatch_iff _ _ _ _).2 ?_
    rcases (ukeyMatch_iff _ _ _ _).1 h with ⟨h1, h2⟩ | ⟨h1, h2⟩
    · exact Or.inl ⟨h1.symm, h2.symm⟩
    · exact Or.inr ⟨h2.symm, h1.symm⟩
  | false =>
    rw [Bool.eq_false_iff]
    intro hab
    rw [Bool.eq_false_iff] at h
    refine h ((ukeyMatch_iff _ _ _ _).2 ?_)
    rcases (ukeyMatch_iff _ _ _ _).1 hab with ⟨h1, h2⟩ | ⟨h1, h2⟩
    · exact Or.inl ⟨h1.symm, h2.symm⟩
    · exact Or.inr ⟨h2.symm, h1.symm⟩

theorem ukeyMatch_trans (a b c d u v : String)
    (h1 : ukeyMatch a b u v = true) (h2 : ukeyMatch c d u v = true) :
    ukeyMatch a b c d = true := by
  refine (ukeyMatch_iff _ _ _ _).2 ?_
  rcases (ukeyMatch_iff _ _ _ _).1 h1 with ⟨e1, e2⟩ | ⟨e1, e2⟩ <;>
    rcases (ukeyMatch_iff _ _ _ _).1 h2 with ⟨f1, f2⟩ | ⟨f1, f2⟩ <;>
    subst e1 <;> subst e2
  · exact Or.inl ⟨f1.symm, f2.symm⟩
  · exact Or.inr ⟨f2.symm, f1.symm⟩
  · exact Or.inr ⟨f2.symm, f1.symm⟩
  · exact Or.inl ⟨f1.symm, f2.symm⟩

theorem setEdgeU_keys_distinct (es : EdgeList) (u v : String) (w : Attrs)
    (h : EdgeKeysDistinct es) : EdgeKeysDistinct (setEdgeU es u v w) := by
  induction es with
  | nil => exact List.pairwise_singleton _ _
  | cons hd t ih =>
    obtain ⟨a, b, d⟩ := hd
    rcases List.pairwise_cons.1 h with ⟨hh, ht⟩
    simp only [setEdgeU]
    split
    · exact List.pairwise_cons.2 ⟨fun e' he' => hh e' he', ht⟩
    · rename_i hm
      refine List.pairwise_cons.2 ⟨?_, ih ht⟩
      refine mem_setEdgeU_endpoints (P := fun x y => ukeyMatch a b x y = false)
        t u v w (fun e' he' => hh e' he') ?_
      exact Bool.eq_false_iff.2 hm

theorem insertReasons_keys_distinct (rs : List (String × String × Value)) :
    ∀ G : UGraph, EdgeKeysDistinct G.edges →
      EdgeKeysDistinct (insertReasons rs G).edges := by
  induction rs with
  | nil => intro G h; exact h
  | cons r t ih =>
    intro G h
    exact ih _ (setEdgeU_keys_distinct _ _ _ _ h)

theorem foldPairs_keys_distinct (ps : List (String × String)) :
    ∀ G : UGraph, EdgeKeysDistinct G.edges →
      EdgeKeysDistinct ((ps.foldl (fun G q =>
        G.addEdge q.1 q.2 [("reason", Value.str "same_domain")]) G)).edges := by
  induction ps with
  | nil => intro G h; exact h
  | cons q t ih =>
    intro G h
    exact ih _ (setEdgeU_keys_distinct _ _ _ _ h)

theorem setEdgeU_mem_rev_of_not_match (es : EdgeList) (u v : String) (w : Attrs)
    (e : String × String × Attrs) (he : e ∈ setEdgeU es u v w)
    (hne : ukeyMatch e.1 e.2.1 u v = false) : e ∈ es := by
  induction es with
  | nil =>
    rw [List.mem_singleton.1 he] at hne
    rw [show ukeyMatch u v u v = true from by simp [ukeyMatch]] at hne
    cases hne
  | cons hd t ih =>
    obtain ⟨a, b, d⟩ := hd
    simp only [setEdgeU] at he
    split at he
    · rename_i hm
      rcases List.mem_cons.1 he with h | h
      · rw [h] at hne
        rw [hm] at hne
        cases hne
      · exact List.mem_cons_of_mem _ h
    · rcases List.mem_cons.1 he with h | h
      · exact h ▸ List.mem_cons_self _ _
      · exact List.mem_cons_of_mem _ (ih h)

theorem setEdgeU_reason_shape (es : EdgeList) (u v : String) (z : Value)
    (h : ∀ e ∈ es, ∃ y, e.2.2 = [("reason", y)]) :
    ∀ e ∈ setEdgeU es u v [("reason", z)], ∃ y, e.2.2 = [("reason", y)] := by
  induction es with
  | nil =>
    intro e he
    rw [List.mem_singleton.1 he]
    exact ⟨z, rfl⟩
  | cons hd t ih =>
    obtain ⟨a, b, d⟩ := hd
    intro e he
    simp only [setEdgeU] at he
    split at he
    · rcases List.mem_cons.1 he with h' | h'
      · obtain ⟨y, hy⟩ := h (a, b, d) (List.mem_cons_self _ _)
        refine ⟨z, ?_⟩
        rw [h']
        show updAttrs d [("reason", z)] = [("reason", z)]
        rw [show d = [("reason", y)] from hy]
        simp [updAttrs, setAttr]
      · exact h e (List.mem_cons_of_mem _ h')
    · rcases List.mem_cons.1 he with h' | h'
      · exact h e (h' ▸ List.mem_cons_self _ _)
      · exact ih (fun e' he' => h e' (List.mem_cons_of_mem _ he')) e h'

theorem setEdgeU_match_attrs (es : EdgeList) (u v : String) (x : Value)
    (hek : EdgeKeysDistinct es)
    (hreason : ∀ e ∈ es, ∃ y, e.2.2 = [("reason", y)])
    (e : String × String × Attrs) (he : e ∈ setEdgeU es u v [("reason", x)])
    (hm : ukeyMatch e.1 e.2.1 u v = true) :
    e.2.2 = [("reason", x)] := by
  induction es with
  | nil =>
    rw [List.mem_singleton.1 he]
  | cons hd t ih =>
    obtain ⟨a, b, d⟩ := hd
    rcases List.pairwise_cons.1 hek with ⟨hh, ht⟩
    simp only [setEdgeU] at he
    split at he
    · rename_i hm0
      rcases List.mem_cons.1 he with h' | h'
      · obtain ⟨y, hy⟩ := hreason (a, b, d) (List.mem_cons_self _ _)
        rw [h']
        show updAttrs d [("reason", x)] = [("reason", x)]
        rw [show d = [("reason", y)] from hy]
        simp [updAttrs, setAttr]
      · exfalso
        have hmatch := ukeyMatch_trans a b e.1 e.2.1 u v hm0 hm
        rw [hh e h'] at hmatch
        cases hmatch
    · rename_i hm0
      rcases List.mem_cons.1 he with h' | h'
      · exfalso
        rw [h'] at hm
        exact hm0 hm
      · exact ih ht (fun e' he' => hreason e' (List.mem_cons_of_mem _ he')) h'

/-- Folding resolved hints into the graph: an edge untouched by the hints
keeps its membership; an edge whose unordered pair some hint resolves to
carries the reason of the *last* such hint. -/
theorem insertReasons_last_reason (rs : List (String × String × Value)) :
    ∀ G : UGraph,
      EdgeKeysDistinct G.edges →
      (∀ e ∈ G.edges, ∃ y, e.2.2 = [("reason", y)]) →
      ∀ e ∈ (insertReasons rs G).edges,
        ((rs.filter (fun r => ukeyMatch r.1 r.2.1 e.1 e.2.1)).getLast? = none
          ∧ e ∈ G.edges)
        ∨ (∃ r, (rs.filter (fun r => ukeyMatch r.1 r.2.1 e.1 e.2.1)).getLast? = some r
            ∧ e.2.2 = [("reason", r.2.2)]) := by
  induction rs with
  | nil =>
    intro G _ _ e he
    exact Or.inl ⟨rfl, he⟩
  | cons r rs' ih =>
    intro G hek hreason e he
    have hek' : EdgeKeysDistinct
        (G.addEdge r.1 r.2.1 [("reason", r.2.2)]).edges :=
      setEdgeU_keys_distinct _ _ _ _ hek
    have hreason' : ∀ e' ∈ (G.addEdge r.1 r.2.1 [("reason", r.2.2)]).edges,
        ∃ y, e'.2.2 = [("reason", y)] :=
      setEdgeU_reason_shape G.edges r.1 r.2.1 r.2.2 hreason
    rcases ih _ hek' hreason' e he with ⟨hnone, hmem⟩ | ⟨r', hlast, hattr⟩
    · by_cases hm : ukeyMatch r.1 r.2.1 e.1 e.2.1 = true
      · right
        refine ⟨r, ?_, ?_⟩
        · rw [List.filter_cons, if_pos hm, List.getLast?_eq_none_iff.1 hnone]
          rfl
        · refine setEdgeU_match_attrs G.edges r.1 r.2.1 r.2.2 hek hreason e hmem ?_
          rw [ukeyMatch_symm]
          exact hm
      · left
        constructor
        · rw [List.filter_cons, if_neg (by rw [Bool.eq_false_iff.2 hm]; simp)]
          exact hnone
        · refine setEdgeU_mem_rev_of_not_match G.edges r.1 r.2.1 _ e hmem ?_
          rw [ukeyMatch_symm]
          exact Bool.eq_false_iff.2 hm
    · right
      refine ⟨r', ?_, hattr⟩
      rw [List.filter_cons]
      split
      · have hne : rs'.filter (fun r => ukeyMatch r.1 r.2.1 e.1 e.2.1) ≠ [] := by
          intro hnil
          rw [hnil] at hlast
          cases hlast
        obtain ⟨c, l', hcl⟩ := List.exists_cons_of_ne_nil hne
        rw [hcl, List.getLast?_cons_cons, ← hcl]
        exact hlast
      · exact hlast

/-- C9: the friendship graph never contains parallel edges — its stored
edges have pairwise-distinct unordered endpoint pairs — and when hints
resolve, each edge's reason attribute is the one carried by the last hint
that resolved to its unordered pair. -/
theorem C9_no_parallel_edges (users : List User) (ue : Option (List EdgeHint)) :
    EdgeKeysDistinct (build_friendship users ue).edges
    ∧ (resolvedHints users ue ≠ [] →
      ∀ e ∈ (build_friendship users ue).edges,
        ∃ r, ((resolvedHints users ue).filter
            (fun r => ukeyMatch r.1 r.2.1 e.1 e.2.1)).getLast? = some r
          ∧ e.2.2 = [("reason", r.2.2)]
          ∧ r ∈ resolvedHints users ue) := by
  have hedges : (userNodesGraph users).edges = [] :=
    UGraph_nodeFold_edges users ⟨[], []⟩
  constructor
  · by_cases h : resolvedHints users ue = []
    · rw [(build_friendship_cases users ue).1 h, fallbackStep_eq_foldPairs]
      refine foldPairs_keys_distinct _ _ ?_
      rw [hedges]
      exact List.Pairwise.nil
    · rw [(build_friendship_cases users ue).2 h]
      refine insertReasons_keys_distinct _ _ ?_
      rw [hedges]
      exact List.Pairwise.nil
  · intro h e he
    rw [(build_friendship_cases users ue).2 h] at he
    rcases insertReasons_last_reason (resolvedHints users ue) (userNodesGraph users)
        (by rw [hedges]; exact List.Pairwise.nil)
        (by rw [hedges]; intro e' he'; cases he') e he with ⟨_, hmem⟩ | ⟨r, hlast, hattr⟩
    · rw [hedges] at hmem
      cases hmem
    · exact ⟨r, hlast, hattr,
        List.mem_of_mem_filter (List.mem_of_getLast?_eq_some hlast)⟩

/-- An id-based edge hint with no handle fields. -/
def mkHint (si di : Value) (rs : Option Value) : EdgeHint :=
  { src_id := si, dst_id := di, src_acct := none, dst_acct := none, reason := rs }

/-- Two hints resolving to the same unordered pair (the second reversed). -/
def hintsC9 : List EdgeHint :=
  [mkHint (.str "a") (.str "b") none, mkHint (.str "b") (.str "a") (some (.str "r2"))]

/-- Concrete instantiation of C9: hints a-b (default reason) and b-a
(reason r2) yield a single stored edge whose reason is r2, the one carried
by the last hint. -/
theorem C9_witness :
    (build_friendship usersW (some hintsC9)).edges
      = [("a", "b", [("reason", Value.str "r2")])]
    ∧ ∃ r, ((resolvedHints usersW (some hintsC9)).filter
        (fun r => ukeyMatch r.1 r.2.1 "a" "b")).getLast? = some r
      ∧ ([("reason", Value.str "r2")] : Attrs) = [("reason", r.2.2)]
      ∧ r ∈ resolvedHints usersW (some hintsC9) := by
  refine ⟨by decide, ?_⟩
  exact (C9_no_parallel_edges usersW (some hintsC9)).2 (by decide)
    ("a", "b", [("reason", Value.str "r2")]) (by decide)

/-! ### write_csvs (build_networks.py lines 158-182) -/

/-- One CSV cell: Python's csv writer renders None as the empty string
(both for an absent key and for a stored null) and everything else via
`str`. -/
def csvCell : Option Value → String
  | none => ""
  | some .null => ""
  | some v => pyStr v

/-- Lexicographic code-point comparison of strings, as Python's `sorted`
uses on `str` (structural, so that concrete tables evaluate). -/
def charListLe : List Char → List Char → Bool
  | [], _ => true
  | _ :: _, [] => false
  | a :: as, b :: bs =>
    if a.toNat = b.toNat then charListLe as bs
    else decide (a.toNat < b.toNat)

def strLe (a b : String) : Bool := charListLe a.data b.data

/-- `sorted(set(keys))` (lexicographic string order, unique keys). -/
def sortKeys (l : List String) : List String :=
  (List.insertionSort (fun a b : String => strLe a b = true) l).dedup

theorem charListLe_total : ∀ l1 l2 : List Char,
    charListLe l1 l2 = true ∨ charListLe l2 l1 = true := by
  intro l1
  induction l1 with
  | nil => intro l2; exact Or.inl rfl
  | cons a as ih =>
    intro l2
    cases l2 with
    | nil => exact Or.inr rfl
    | cons b bs =>
      simp only [charListLe]
      by_cases h : a.toNat = b.toNat
      · rw [if_pos h, if_pos h.symm]
        exact ih bs
      · rw [if_neg h, if_neg (fun h' => h h'.symm)]
        rcases Nat.lt_or_ge a.toNat b.toNat with hlt | hge
        · exact Or.inl (decide_eq_true hlt)
        · exact Or.inr (decide_eq_true (by omega))

theorem charListLe_trans : ∀ l1 l2 l3 : List Char,
    charListLe l1 l2 = true → charListLe l2 l3 = true → charListLe l1 l3 = true := by
  intro l1
  induction l1 with
  | nil => intro l2 l3 _ _; rfl
  | cons a as ih =>
    intro l2 l3 h12 h23
    cases l2 with
    | nil => exact absurd h12 (by simp [charListLe])
    | cons b bs =>
      cases l3 with
      | nil => exact absurd h23 (by simp [charListLe])
      | cons c cs =>
        simp only [charListLe] at h12 h23 ⊢
        by_cases hab : a.toNat = b.toNat <;> by_cases hbc : b.toNat = c.toNat
        · rw [if_pos hab] at h12
          rw [if_pos hbc] at h23
          rw [if_pos (hab.trans hbc)]
          exact ih bs cs h12 h23
        · rw [if_neg hbc] at h23
          have := of_decide_eq_true h23
          rw [if_neg (by omega)]
          exact decide_eq_true (by omega)
        · rw [if_neg hab] at h12
          have := of_decide_eq_true h12
          rw [if_neg (by omega)]
          exact decide_eq_true (by omega)
        · rw [if_neg hab] at h12
          rw [if_neg hbc] at h23
          have h1 := of_decide_eq_true h12
          have h2 := of_decide_eq_true h23
          rw [if_neg (by omega)]
          exact decide_eq_true (by omega)

instance : IsTotal String (fun a b : String => strLe a b = true) :=
  ⟨fun a b => charListLe_total a.data b.data⟩

instance : IsTrans String (fun a b : String => strLe a b = true) :=
  ⟨fun a b c => charListLe_trans a.data b.data c.data⟩

/-- `node_attrs`: the union of attribute keys over all nodes, sorted. -/
def nodeAttrKeys (ns : NodeList) : List String :=
  sortKeys (ns.flatMap (fun p => p.2.map Prod.fst))

/-- The rows written to the nodes CSV: header, then one row per node with
`d.get(k)` rendered for every column. -/
def nodesTable (ns : NodeList) : List (List String) :=
  ("id" :: nodeAttrKeys ns) ::
    ns.map (fun p => p.1 :: (nodeAttrKeys ns).map (fun k => csvCell (getAttr? p.2 k)))

/-- `edge_attrs`: the union of attribute keys over all edges, sorted. -/
def edgeAttrKeys (es : EdgeList) : List String :=
  sortKeys (es.flatMap (fun e => e.2.2.map Prod.fst))

/-- The rows written to the edges CSV. -/
def edgesTable (es : EdgeList) : List (List String) :=
  ("source" :: "target" :: edgeAttrKeys es) ::
    es.map (fun e =>
      e.1 :: e.2.1 :: (edgeAttrKeys es).map (fun k => csvCell (getAttr? e.2.2 k)))

theorem sortKeys_sorted (l : List String) :
    List.Sorted (fun a b : String => strLe a b = true) (sortKeys l) :=
  List.Pairwise.sublist (List.dedup_sublist _)
    (List.sorted_insertionSort (fun a b : String => strLe a b = true) l)

theorem sortKeys_nodup (l : List String) : (sortKeys l).Nodup :=
  List.nodup_dedup _

theorem mem_sortKeys (l : List String) (k : String) : k ∈ sortKeys l ↔ k ∈ l :=
  List.mem_dedup.trans
    (List.mem_insertionSort (fun a b : String => strLe a b = true))

/-- C5: both CSV tables have the specified header — the id column(s)
followed by the alphabetically sorted, duplicate-free union of the
attribute keys observed across all nodes (edges) — and every row has one
cell per column, a missing attribute rendering as the empty string rather
than an omitted column. -/
theorem C5_csv_headers_and_cells (ns : NodeList) (es : EdgeList) :
    ((nodesTable ns).head? = some ("id" :: nodeAttrKeys ns)
      ∧ List.Sorted (fun a b : String => strLe a b = true) (nodeAttrKeys ns)
      ∧ (nodeAttrKeys ns).Nodup
      ∧ (∀ k, k ∈ nodeAttrKeys ns ↔ ∃ p ∈ ns, k ∈ p.2.map Prod.fst)
      ∧ (∀ row ∈ nodesTable ns, row.length = 1 + (nodeAttrKeys ns).length)
      ∧ (∀ p ∈ ns,
          (p.1 :: (nodeAttrKeys ns).map (fun k => csvCell (getAttr? p.2 k)))
            ∈ nodesTable ns
          ∧ ∀ k, getAttr? p.2 k = none → csvCell (getAttr? p.2 k) = ""))
    ∧ ((edgesTable es).head? = some ("source" :: "target" :: edgeAttrKeys es)
      ∧ List.Sorted (fun a b : String => strLe a b = true) (edgeAttrKeys es)
      ∧ (edgeAttrKeys es).Nodup
      ∧ (∀ k, k ∈ edgeAttrKeys es ↔ ∃ e ∈ es, k ∈ e.2.2.map Prod.fst)
      ∧ (∀ row ∈ edgesTable es, row.length = 2 + (edgeAttrKeys es).length)
      ∧ (∀ e ∈ es,
          (e.1 :: e.2.1 :: (edgeAttrKeys es).map (fun k => csvCell (getAttr? e.2.2 k)))
            ∈ edgesTable es
          ∧ ∀ k, getAttr? e.2.2 k = none → csvCell (getAttr? e.2.2 k) = "")) := by
  constructor
  · refine ⟨rfl, sortKeys_sorted _, sortKeys_nodup _, ?_, ?_, ?_⟩
    · intro k
      rw [show nodeAttrKeys ns = sortKeys (ns.flatMap (fun p => p.2.map Prod.fst))
          from rfl, mem_sortKeys, List.mem_flatMap]
    · intro row hrow
      rcases List.mem_cons.1 hrow with h | h
      · rw [h]
        simp only [List.length_cons]
        omega
      · obtain ⟨p, _, hp⟩ := List.mem_map.1 h
        rw [← hp]
        simp only [List.length_cons, List.length_map]
        omega
    · intro p hp
      refine ⟨List.mem_cons_of_mem _ (List.mem_map_of_mem _ hp), ?_⟩
      intro k hk
      rw [hk]
      rfl
  · refine ⟨rfl, sortKeys_sorted _, sortKeys_nodup _, ?_, ?_, ?_⟩
    · intro k
      rw [show edgeAttrKeys es = sortKeys (es.flatMap (fun e => e.2.2.map Prod.fst))
          from rfl, mem_sortKeys, List.mem_flatMap]
    · intro row hrow
      rcases List.mem_cons.1 hrow with h | h
      · rw [h]
        simp only [List.length_cons]
        omega
      · obtain ⟨e, _, he⟩ := List.mem_map.1 h
        rw [← he]
        simp only [List.length_cons, List.length_map]
        omega
    · intro e he
      refine ⟨List.mem_cons_of_mem _ (List.mem_map_of_mem _ he), ?_⟩
      intro k hk
      rw [hk]
      rfl

/-- A two-node sample: node 1 has a string attribute b and a null
attribute a; node 2 has no attributes at all. -/
def nsC5 : NodeList := [("1", [("b", .str "vb"), ("a", .null)]), ("2", [])]

/-- Concrete instantiation of C5: the header is id followed by the sorted
key union [a, b]; node 2, which lacks both attributes, still gets a full
row with empty cells; the null-valued a of node 1 renders as empty. -/
theorem C5_witness :
    nodesTable nsC5 = [["id", "a", "b"], ["1", "", "vb"], ["2", "", ""]]
    ∧ (("2" :: (nodeAttrKeys nsC5).map (fun k => csvCell (getAttr? ([] : Attrs) k)))
        ∈ nodesTable nsC5)
    ∧ csvCell (getAttr? ([] : Attrs) "a") = "" := by
  refine ⟨by decide, ?_, ?_⟩
  · exact ((C5_csv_headers_and_cells nsC5 []).1.2.2.2.2.2 ("2", []) (by decide)).1
  · exact ((C5_csv_headers_and_cells nsC5 []).1.2.2.2.2.2 ("2", []) (by decide)).2 "a" rfl

end SocialGraph
